import Mathlib

/-!
Verification development for the parallel BLAKE3 streaming hasher
(`streaming-hasher.js`, `streaming-worker.js` and the shared-array-buffer
variant `SABStreamHasher` with its `sab-worker`).

The JavaScript source is shallowly embedded:

* byte buffers are `List Nat`;
* JS `number` arithmetic that goes through 32-bit coercions
  (`chunkIndex & -chunkIndex`, `1 << k`) is modelled with explicit `% 2 ^ 32`;
* the node arena (`nodeMap`, integer ids, `parentId` links) built by
  `#buildTree` is modelled by the isomorphic binary tree `BTree` together with
  paths from the root (a node id corresponds to the path of directions that
  reaches the node; `parentId = null` corresponds to the empty path);
* the five primitive operations of the wasm library
  (`hash_single`, `hash_subtree`, `parent_cv`, `root_hash`,
  `left_subtree_len`) are not part of the repository sources, only their
  declaration files are; they are modelled from the spec, see `Blake3Prims`,
  `hashSubtree`, `hashSingle` and `leftSubtreeLen` below.
-/

namespace Blake3Stream

/-! ### Trailing zeros (specification side)

The spec states the leaf-alignment bound as
`maxSubtreeLen(offset) = (1 << trailing_zeros(offset/1024)) * 1024`.
`trailingZeros` is the exact mathematical trailing-zero count of a positive
natural number. -/

/-- Fueled halving loop for `trailingZeros` (structural, so that concrete
values reduce). -/
def trailingZerosAux : Nat → Nat → Nat
  | 0, _ => 0
  | (fuel + 1), n =>
    if n % 2 = 0 ∧ n ≠ 0 then trailingZerosAux fuel (n / 2) + 1 else 0

/-- Number of trailing zero bits of `n` (0 for `n = 0`). -/
def trailingZeros (n : Nat) : Nat := trailingZerosAux n n

theorem trailingZerosAux_irrel : ∀ f₁ f₂ n, n ≤ f₁ → n ≤ f₂ →
    trailingZerosAux f₁ n = trailingZerosAux f₂ n := by
  intro f₁
  induction f₁ with
  | zero =>
    intro f₂ n h₁ _
    obtain rfl : n = 0 := by omega
    cases f₂ with
    | zero => rfl
    | succ g => simp [trailingZerosAux]
  | succ f ih =>
    intro f₂ n h₁ h₂
    by_cases hn : n = 0
    · subst hn
      cases f₂ with
      | zero => simp [trailingZerosAux]
      | succ g => simp [trailingZerosAux]
    · have hf₂ : ∃ g, f₂ = g + 1 := ⟨f₂ - 1, by omega⟩
      obtain ⟨g, rfl⟩ := hf₂
      rw [trailingZerosAux, trailingZerosAux]
      by_cases he : n % 2 = 0 ∧ n ≠ 0
      · rw [if_pos he, if_pos he, ih g (n / 2) (by omega) (by omega)]
      · rw [if_neg he, if_neg he]

theorem trailingZeros_odd {n : Nat} (h : n % 2 = 1) : trailingZeros n = 0 := by
  rw [trailingZeros]
  have hn : ∃ f, n = f + 1 := ⟨n - 1, by omega⟩
  obtain ⟨f, hf⟩ := hn
  conv_lhs => rw [hf]
  rw [trailingZerosAux, if_neg (by omega)]

theorem trailingZeros_two_mul {n : Nat} (h : 0 < n) :
    trailingZeros (2 * n) = trailingZeros n + 1 := by
  rw [trailingZeros, trailingZeros]
  have h2 : ∃ f, 2 * n = f + 1 := ⟨2 * n - 1, by omega⟩
  obtain ⟨f, hf⟩ := h2
  conv_lhs => rw [hf, trailingZerosAux]
  rw [if_pos (by omega)]
  have hdiv : (f + 1) / 2 = n := by omega
  rw [hdiv, trailingZerosAux_irrel f n n (by omega) (le_refl n)]

theorem trailingZeros_two_pow : ∀ k, trailingZeros (2 ^ k) = k := by
  intro k
  induction k with
  | zero => rfl
  | succ k ih =>
    have : (2 : Nat) ^ (k + 1) = 2 * 2 ^ k := by ring
    rw [this, trailingZeros_two_mul (by positivity), ih]

/-- Fueled structural floor-log2 (equal to `Nat.log2`, but reducible by the
kernel on concrete inputs). -/
def log2floorAux : Nat → Nat → Nat
  | 0, _ => 0
  | (fuel + 1), n => if 2 ≤ n then log2floorAux fuel (n / 2) + 1 else 0

def log2floor (n : Nat) : Nat := log2floorAux n n

theorem log2floorAux_irrel : ∀ f₁ f₂ n, n ≤ f₁ → n ≤ f₂ →
    log2floorAux f₁ n = log2floorAux f₂ n := by
  intro f₁
  induction f₁ with
  | zero =>
    intro f₂ n h₁ _
    obtain rfl : n = 0 := by omega
    cases f₂ with
    | zero => rfl
    | succ g => simp [log2floorAux]
  | succ f ih =>
    intro f₂ n h₁ h₂
    by_cases hn : 2 ≤ n
    · have hf₂ : ∃ g, f₂ = g + 1 := ⟨f₂ - 1, by omega⟩
      obtain ⟨g, rfl⟩ := hf₂
      rw [log2floorAux, log2floorAux, if_pos hn, if_pos hn,
        ih g (n / 2) (by omega) (by omega)]
    · cases f₂ with
      | zero =>
        obtain rfl : n = 0 := by omega
        simp [log2floorAux]
      | succ g => rw [log2floorAux, log2floorAux, if_neg hn, if_neg hn]

theorem log2floor_eq_nat_log2 : ∀ n, log2floor n = Nat.log2 n := by
  intro n
  induction n using Nat.strong_induction_on with
  | _ n ih =>
    by_cases hn : 2 ≤ n
    · have hne : ∃ f, n = f + 1 := ⟨n - 1, by omega⟩
      obtain ⟨f, hf⟩ := hne
      rw [log2floor]
      conv_lhs => rw [hf]
      rw [log2floorAux, if_pos (by omega)]
      have hd : (f + 1) / 2 = n / 2 := by rw [← hf]
      rw [hd, log2floorAux_irrel f (n / 2) (n / 2) (by omega) (le_refl _)]
      rw [show log2floorAux (n / 2) (n / 2) = log2floor (n / 2) from rfl]
      rw [ih (n / 2) (by omega)]
      conv_rhs => rw [Nat.log2]
      rw [if_pos hn]
    · rw [Nat.log2, if_neg hn]
      rcases (show n = 0 ∨ n = 1 by omega) with rfl | rfl
      · rfl
      · rfl

theorem log2floor_two_pow (k : Nat) : log2floor (2 ^ k) = k := by
  rw [log2floor_eq_nat_log2, Nat.log2_eq_log_two]
  exact Nat.log_pow (by omega) k

/-- Decomposition: a positive number is `2 ^ trailingZeros n` times an odd
number. -/
theorem trailingZeros_spec {n : Nat} (h : 0 < n) :
    ∃ m, m % 2 = 1 ∧ n = 2 ^ trailingZeros n * m := by
  induction n using Nat.strong_induction_on with
  | _ n ih =>
    rcases Nat.even_or_odd n with he | ho
    · obtain ⟨k, hk⟩ := he
      have hk2 : n = 2 * k := by omega
      have hkpos : 0 < k := by omega
      obtain ⟨m, hm1, hm2⟩ := ih k (by omega) hkpos
      refine ⟨m, hm1, ?_⟩
      rw [hk2, trailingZeros_two_mul hkpos, pow_succ]
      nth_rewrite 1 [hm2]
      ring
    · have h1 : n % 2 = 1 := Nat.odd_iff.mp ho
      exact ⟨n, h1, by rw [trailingZeros_odd h1]; ring⟩

/-! ### The planner alignment bound `maxSubtreeLen`

JavaScript source (`streaming-hasher.js` lines 7-12, identical in the SAB
variant):

```
function maxSubtreeLen(offset) {
  if (offset === 0) return Infinity;
  const chunkIndex = offset / 1024;
  const trailingZeros = Math.log2(chunkIndex & -chunkIndex);
  return (1 << trailingZeros) * 1024;
}
```

JS semantics made explicit:

* `chunkIndex & -chunkIndex` coerces both operands with `ToInt32`, i.e. it
  computes on `chunkIndex % 2^32` in two's complement; the unsigned value of
  the result is `low := u &&& ((2^32 - u) % 2^32)` with `u := chunkIndex % 2^32`,
  which is the lowest set bit of `u` (or `0` when `u = 0`), but its *signed*
  reading is negative when `low = 2^31`;
* `Math.log2` of `0` is `-Infinity` and of a negative number is `NaN`; both
  are coerced to `0` by the `ToInt32` of the shift, so `1 << trailingZeros`
  is `1` in those two degenerate cases, and `2 ^ log2 low = low` otherwise
  (`low` is a power of two `≤ 2^30`, whose float log2 is exact).

`Infinity` is modelled by `⊤` in `WithTop Nat`. -/

/-- Faithful model of the JS `maxSubtreeLen`. -/
def maxSubtreeLen (offset : Nat) : WithTop Nat :=
  if offset = 0 then ⊤
  else
    let chunkIndex := offset / 1024
    let u := chunkIndex % 2 ^ 32
    let low := u &&& ((2 ^ 32 - u) % 2 ^ 32)
    if low = 0 ∨ low = 2 ^ 31 then ((1 * 1024 : Nat) : WithTop Nat)
    else ((2 ^ log2floor low * 1024 : Nat) : WithTop Nat)

/-- Specification-side bound: `(1 << trailing_zeros(offset/1024)) * 1024`
with exact integer arithmetic, as the spec describes it. -/
def specMaxSubtreeLen (offset : Nat) : WithTop Nat :=
  if offset = 0 then ⊤
  else ((2 ^ trailingZeros (offset / 1024) * 1024 : Nat) : WithTop Nat)

/-! ### Lowest-set-bit arithmetic

`u & -u` on int32 isolates the lowest set bit of the low 32 bits of `u`.
The lemmas below establish this for `Nat` with explicit `2 ^ n` modulus. -/

theorem two_pow_pred {n : Nat} (hn : 1 ≤ n) : 2 ^ n = 2 * 2 ^ (n - 1) := by
  conv_lhs => rw [← Nat.sub_add_cancel hn]
  ring

theorem and_mod_two (x y : Nat) :
    (x &&& y) % 2 = if x % 2 = 1 ∧ y % 2 = 1 then 1 else 0 := by
  by_cases h : x % 2 = 1 ∧ y % 2 = 1
  · rw [if_pos h]
    exact Nat.and_mod_two_eq_one.mpr h
  · have hne : (x &&& y) % 2 ≠ 1 := fun hh => h (Nat.and_mod_two_eq_one.mp hh)
    simp [h]
    omega

theorem and_parts (a b ra rb : Nat) (ha : ra < 2) (hb : rb < 2) :
    (2 * a + ra) &&& (2 * b + rb) =
      2 * (a &&& b) + (if ra = 1 ∧ rb = 1 then 1 else 0) := by
  have hdiv : ((2 * a + ra) &&& (2 * b + rb)) / 2 = a &&& b := by
    rw [Nat.and_div_two]
    have h1 : (2 * a + ra) / 2 = a := by omega
    have h2 : (2 * b + rb) / 2 = b := by omega
    rw [h1, h2]
  have hmod : ((2 * a + ra) &&& (2 * b + rb)) % 2 =
      (if ra = 1 ∧ rb = 1 then 1 else 0) := by
    rw [and_mod_two]
    simp only [show ((2 * a + ra) % 2 = 1 ∧ (2 * b + rb) % 2 = 1) ↔ (ra = 1 ∧ rb = 1)
      by omega]
  omega

/-- A number and its bit complement below `2 ^ n` share no bits. -/
theorem and_compl_two_pow_sub_one : ∀ n w, w < 2 ^ n → w &&& (2 ^ n - 1 - w) = 0 := by
  intro n
  induction n with
  | zero => intro w hw; interval_cases w; simp
  | succ n ih =>
    intro w hw
    obtain ⟨q, r, hr, rfl⟩ : ∃ q r, r < 2 ∧ w = 2 * q + r :=
      ⟨w / 2, w % 2, by omega, by omega⟩
    have hpow : 2 ^ (n + 1) = 2 * 2 ^ n := by ring
    have hq : q < 2 ^ n := by omega
    have hcompl : 2 ^ (n + 1) - 1 - (2 * q + r) = 2 * (2 ^ n - 1 - q) + (1 - r) := by
      omega
    rw [hcompl, and_parts _ _ _ _ (by omega) (by omega), ih _ hq]
    have : ¬(r = 1 ∧ 1 - r = 1) := by omega
    simp [this]

/-- For odd `u < 2 ^ n`, `u &&& (2 ^ n - u) = 1`. -/
theorem odd_and_two_pow_sub {n u : Nat} (hodd : u % 2 = 1) (hlt : u < 2 ^ n) :
    u &&& (2 ^ n - u) = 1 := by
  have hn : 1 ≤ n := by
    by_contra h
    have : n = 0 := by omega
    subst this; simp at hlt; omega
  have hpow : 2 ^ n = 2 * 2 ^ (n - 1) := two_pow_pred hn
  obtain ⟨q, rfl⟩ : ∃ q, u = 2 * q + 1 := ⟨u / 2, by omega⟩
  have hqlt : q < 2 ^ (n - 1) := by omega
  have hv : 2 ^ n - (2 * q + 1) = 2 * (2 ^ (n - 1) - 1 - q) + 1 := by omega
  rw [hv, and_parts _ _ _ _ (by omega) (by omega),
    and_compl_two_pow_sub_one (n - 1) q hqlt]
  simp

/-- Lowest set bit: for `u = 2 ^ k * m` with `m` odd and `u < 2 ^ n`,
`u &&& (2 ^ n - u) = 2 ^ k`. -/
theorem and_two_pow_sub_self : ∀ k n m u : Nat, m % 2 = 1 → u = 2 ^ k * m →
    u < 2 ^ n → u &&& (2 ^ n - u) = 2 ^ k := by
  intro k
  induction k with
  | zero =>
    intro n m u hm hu hlt
    subst hu
    simpa using odd_and_two_pow_sub (by omega) hlt
  | succ k ih =>
    intro n m u hm hu hlt
    subst hu
    have hmpos : 1 ≤ m := by omega
    have he : 2 ^ (k + 1) * m = 2 * (2 ^ k * m) := by ring
    have hn : 1 ≤ n := by
      by_contra h
      have h0 : n = 0 := by omega
      subst h0
      have : (1 : Nat) ≤ 2 ^ k * m := Nat.one_le_iff_ne_zero.mpr (by positivity)
      simp at hlt
      omega
    have hpow : 2 ^ n = 2 * 2 ^ (n - 1) := two_pow_pred hn
    have hwlt : 2 ^ k * m < 2 ^ (n - 1) := by omega
    have hv : 2 ^ n - 2 ^ (k + 1) * m = 2 * (2 ^ (n - 1) - 2 ^ k * m) + 0 := by omega
    have he0 : 2 ^ (k + 1) * m = 2 * (2 ^ k * m) + 0 := by omega
    rw [hv, he0, and_parts _ _ _ _ (by omega) (by omega),
      ih (n - 1) m _ hm rfl hwlt]
    simp [pow_succ]
    ring

/-! ### Exact characterization of `maxSubtreeLen` -/

/-- In the normal range (chunk index with at most 30 trailing zeros) the code
computes exactly the spec value. -/
theorem maxSubtreeLen_eq_spec {offset : Nat} (hoff : 0 < offset)
    (htz : trailingZeros (offset / 1024) ≤ 30) (hc : 0 < offset / 1024) :
    maxSubtreeLen offset = specMaxSubtreeLen offset := by
  have hoffne : offset ≠ 0 := by omega
  set c := offset / 1024 with hcdef
  set k := trailingZeros c with hkdef
  obtain ⟨m, hm1, hm2⟩ := trailingZeros_spec hc
  rw [← hkdef] at hm2
  have hsplit : (2 ^ 32 : Nat) = 2 ^ k * 2 ^ (32 - k) := by
    rw [← pow_add]; congr 1; omega
  have humod : c % 2 ^ 32 = 2 ^ k * (m % 2 ^ (32 - k)) := by
    rw [hm2, hsplit, Nat.mul_mod_mul_left]
  have hmmodd : m % 2 ^ (32 - k) % 2 = 1 := by
    rw [Nat.mod_mod_of_dvd m (dvd_pow_self 2 (by omega))]
    exact hm1
  have hupos : 0 < c % 2 ^ 32 := by
    rw [humod]
    exact Nat.mul_pos (pow_pos (by norm_num) k) (by omega)
  have hult : c % 2 ^ 32 < 2 ^ 32 := Nat.mod_lt _ (by positivity)
  have hmod2 : (2 ^ 32 - c % 2 ^ 32) % 2 ^ 32 = 2 ^ 32 - c % 2 ^ 32 :=
    Nat.mod_eq_of_lt (by omega)
  have hlow : c % 2 ^ 32 &&& ((2 ^ 32 - c % 2 ^ 32) % 2 ^ 32) = 2 ^ k := by
    rw [hmod2]
    exact and_two_pow_sub_self k 32 _ _ hmmodd humod hult
  have hk0 : (2 : Nat) ^ k ≠ 0 := by positivity
  have hk31 : (2 : Nat) ^ k ≠ 2 ^ 31 := by
    intro h
    have := Nat.pow_right_injective (le_refl 2) h
    omega
  simp only [maxSubtreeLen, specMaxSubtreeLen, hoffne, if_false, ← hcdef, hlow]
  rw [if_neg (by exact not_or_intro hk0 hk31), log2floor_two_pow, ← hkdef]

/-- Degenerate range: when the chunk index has 31 or more trailing zero bits
the int32 bit tricks collapse and the code returns 1024. -/
theorem maxSubtreeLen_degenerate {offset : Nat} (hoff : 0 < offset)
    (htz : 31 ≤ trailingZeros (offset / 1024)) (hc : 0 < offset / 1024) :
    maxSubtreeLen offset = ((1024 : Nat) : WithTop Nat) := by
  have hoffne : offset ≠ 0 := by omega
  set c := offset / 1024 with hcdef
  set k := trailingZeros c with hkdef
  obtain ⟨m, hm1, hm2⟩ := trailingZeros_spec hc
  rw [← hkdef] at hm2
  have hlow : c % 2 ^ 32 &&& ((2 ^ 32 - c % 2 ^ 32) % 2 ^ 32) = 0 ∨
      c % 2 ^ 32 &&& ((2 ^ 32 - c % 2 ^ 32) % 2 ^ 32) = 2 ^ 31 := by
    rcases Nat.lt_or_ge k 32 with hk32 | hk32
    · -- k = 31: the low 32 bits are exactly 2 ^ 31
      have hk31 : k = 31 := by omega
      have hsplit : (2 ^ 32 : Nat) = 2 ^ k * 2 ^ (32 - k) := by
        rw [← pow_add]; congr 1; omega
      have humod : c % 2 ^ 32 = 2 ^ k * (m % 2 ^ (32 - k)) := by
        rw [hm2, hsplit, Nat.mul_mod_mul_left]
      have h32k : 32 - k = 1 := by omega
      have hmm : m % 2 ^ (32 - k) = 1 := by rw [h32k]; simpa using hm1
      have hu31 : c % 2 ^ 32 = 2 ^ 31 := by rw [humod, hmm, hk31]; ring
      right
      rw [hu31]
      have : (2 ^ 32 - 2 ^ 31) % 2 ^ 32 = 2 ^ 31 := by norm_num
      rw [this]
      exact and_two_pow_sub_self 31 32 1 (2 ^ 31) rfl (by ring) (by norm_num)
    · -- k ≥ 32: the low 32 bits are all zero
      left
      have hdvd : (2 ^ 32 : Nat) ∣ 2 ^ k * m :=
        Dvd.dvd.mul_right (pow_dvd_pow 2 hk32) m
      have humod : c % 2 ^ 32 = 0 := by
        rw [hm2]
        exact Nat.mod_eq_zero_of_dvd hdvd
      rw [humod]
      simp
  simp only [maxSubtreeLen, hoffne, if_false, ← hcdef]
  rw [if_pos hlow]

/-- The code never returns a bound below 1024 bytes (one chunk). -/
theorem le_maxSubtreeLen (offset : Nat) :
    ((1024 : Nat) : WithTop Nat) ≤ maxSubtreeLen offset := by
  simp only [maxSubtreeLen]
  split
  · exact le_top
  · split
    · simp
    · have h1 : 1 ≤ 2 ^ log2floor (offset / 1024 % 2 ^ 32 &&&
          (2 ^ 32 - offset / 1024 % 2 ^ 32) % 2 ^ 32) := Nat.one_le_two_pow
      have h2 : (1024 : Nat) ≤ 2 ^ log2floor (offset / 1024 % 2 ^ 32 &&&
          (2 ^ 32 - offset / 1024 % 2 ^ 32) % 2 ^ 32) * 1024 := by omega
      exact_mod_cast h2

/-! ### The primitive library (modelled from the spec)

The wasm module `blake3_wasm_streaming` ships only compiled code and
declaration files; the five primitives are external collaborators.  The spec
fixes their contracts: `left_subtree_len(n)` is the canonical BLAKE3 split
(largest power-of-two number of chunks strictly below the total chunk count,
times 1024), `hash_subtree` hashes a byte range as a subtree rooted at an
absolute offset, `parent_cv` and `root_hash` combine child chaining values
without/with root finalization, and `hash_single` is the full hash. -/

/-- Modelled from the spec: `left_subtree_len(n)` of the primitive library
(the wasm implementation is not part of the repository sources).  For
`n > 1024` this is the largest power-of-two number of full chunks strictly
less than the chunk count, in bytes. -/
def leftSubtreeLen (n : Nat) : Nat :=
  2 ^ log2floor ((n - 1) / 1024) * 1024

theorem leftSubtreeLen_bounds {n : Nat} (h : 1024 < n) :
    0 < leftSubtreeLen n ∧ leftSubtreeLen n < n ∧ 1024 ∣ leftSubtreeLen n := by
  have hq : 1 ≤ (n - 1) / 1024 := by
    have : 1024 ≤ n - 1 := by omega
    omega
  have hle : 2 ^ log2floor ((n - 1) / 1024) ≤ (n - 1) / 1024 := by
    rw [log2floor_eq_nat_log2, Nat.log2_eq_log_two]
    exact Nat.pow_log_le_self 2 (by omega)
  have hmul : (n - 1) / 1024 * 1024 ≤ n - 1 := Nat.div_mul_le_self _ _
  refine ⟨by rw [leftSubtreeLen]; positivity, ?_,
    ⟨2 ^ log2floor ((n - 1) / 1024), mul_comm _ _⟩⟩
  calc leftSubtreeLen n ≤ (n - 1) / 1024 * 1024 := by
        exact Nat.mul_le_mul_right 1024 hle
    _ ≤ n - 1 := hmul
    _ < n := by omega

/-- Modelled from the spec: the abstract interface of the primitive library
(`§4.1`).  `chunkCV data chunkIndex` is the non-root chaining value of a
single chunk, `chunkRoot` the root-finalized hash of a one-chunk input,
`parent` is `parent_cv` and `root` is `root_hash`. -/
structure Blake3Prims (cv : Type) where
  chunkCV : List Nat → Nat → cv
  chunkRoot : List Nat → cv
  parent : cv → cv → cv
  root : cv → cv → cv

variable {cv : Type}

/-- Modelled from the spec: `hash_subtree(bytes, input_offset)` — the non-root
chaining value of `bytes` viewed as a subtree of a larger input starting at
absolute byte `input_offset`, recursing along the canonical
`left_subtree_len` split down to single chunks. -/
def hashSubtree (P : Blake3Prims cv) (x : List Nat) (off : Nat) : cv :=
  if h : x.length ≤ 1024 then P.chunkCV x (off / 1024)
  else
    P.parent
      (hashSubtree P (x.take (leftSubtreeLen x.length)) off)
      (hashSubtree P (x.drop (leftSubtreeLen x.length)) (off + leftSubtreeLen x.length))
termination_by x.length
decreasing_by
  · have hb := leftSubtreeLen_bounds (show 1024 < x.length by omega)
    simp only [List.length_take]
    omega
  · have hb := leftSubtreeLen_bounds (show 1024 < x.length by omega)
    simp only [List.length_drop]
    omega

/-- Modelled from the spec: `hash_single(bytes)` — the full BLAKE3 digest,
i.e. root finalization over the canonical top-level split. -/
def hashSingle (P : Blake3Prims cv) (x : List Nat) : cv :=
  if x.length ≤ 1024 then P.chunkRoot x
  else
    P.root
      (hashSubtree P (x.take (leftSubtreeLen x.length)) 0)
      (hashSubtree P (x.drop (leftSubtreeLen x.length)) (leftSubtreeLen x.length))

/-! ### The subtree planner `#buildTree`

JavaScript (`streaming-hasher.js` lines 103-122, identical in the SAB
variant with `#chunkSize` in place of `#leafSize`):

```
#buildTree(offset, size) {
  const maxSub = maxSubtreeLen(offset);
  if (size <= this.#leafSize && size <= maxSub) {
    ... emit leaf { offset, size } ...
  }
  const leftLen = Number(left_subtree_len(BigInt(size)));
  const left = this.#buildTree(offset, leftLen);
  const right = this.#buildTree(offset + leftLen, size - leftLen);
  ... emit node { offset, size, left, right } ...
}
```

The arena of nodes (`nodeMap`, integer ids, `parentId` back-links) is
modelled by the isomorphic inductive tree.  The JS recursion has no fuel; the
Lean embedding adds an explicit fuel argument and returns `none` on
exhaustion, so that termination is a provable statement (claim C10) rather
than an assumption.  `lsl` is the `left_subtree_len` primitive, kept
abstract where a claim only assumes its contract. -/

inductive BTree where
  | leaf (offset size : Nat)
  | node (offset size : Nat) (left right : BTree)
deriving DecidableEq

/-- Fueled faithful model of `#buildTree`. -/
def buildTree (lsl : Nat → Nat) (leafSize : Nat) : Nat → Nat → Nat → Option BTree
  | 0, _, _ => none
  | (fuel + 1), offset, size =>
    if size ≤ leafSize ∧ ((size : Nat) : WithTop Nat) ≤ maxSubtreeLen offset then
      some (.leaf offset size)
    else
      match buildTree lsl leafSize fuel offset (lsl size),
          buildTree lsl leafSize fuel (offset + lsl size) (size - lsl size) with
      | some l, some r => some (.node offset size l r)
      | _, _ => none

/-- Model of `#collectLeaves`: the `(offset, size)` ranges of the leaves in
left-to-right order. -/
def collectLeaves : BTree → List (Nat × Nat)
  | .leaf o s => [(o, s)]
  | .node _ _ l r => collectLeaves l ++ collectLeaves r

/-! ### Termination and leaf invariants of the planner -/

theorem buildTree_isSome_aux (lsl : Nat → Nat) (leafSize b : Nat)
    (hbleaf : b ≤ leafSize) (hb1024 : b ≤ 1024)
    (H : ∀ n, b < n → 0 < lsl n ∧ lsl n < n) :
    ∀ fuel offset size, size ≤ fuel → 1 ≤ fuel →
      (buildTree lsl leafSize fuel offset size).isSome = true := by
  intro fuel
  induction fuel with
  | zero => intro _ _ _ h; omega
  | succ f ih =>
    intro offset size hsz _
    rw [buildTree]
    by_cases hguard : size ≤ leafSize ∧ ((size : Nat) : WithTop Nat) ≤ maxSubtreeLen offset
    · rw [if_pos hguard]; rfl
    · rw [if_neg hguard]
      have hbig : b < size := by
        by_contra hsmall
        apply hguard
        refine ⟨by omega, ?_⟩
        refine le_trans ?_ (le_maxSubtreeLen offset)
        exact_mod_cast (show size ≤ 1024 by omega)
      obtain ⟨hL0, hLlt⟩ := H size (by omega)
      have hl := ih offset (lsl size) (by omega) (by omega)
      have hr := ih (offset + lsl size) (size - lsl size) (by omega) (by omega)
      obtain ⟨l, hlsome⟩ := Option.isSome_iff_exists.mp hl
      obtain ⟨r, hrsome⟩ := Option.isSome_iff_exists.mp hr
      rw [hlsome, hrsome]
      rfl

/-- Contract facts for the canonical split. -/
theorem leftSubtreeLen_contract : ∀ n, 1024 < n →
    0 < leftSubtreeLen n ∧ leftSubtreeLen n < n :=
  fun _ h => ⟨(leftSubtreeLen_bounds h).1, (leftSubtreeLen_bounds h).2.1⟩

/-- The four leaf invariants stated by the spec, as a decidable check on an
`(offset, size)` pair. -/
def leafOK (leafSize : Nat) (os : Nat × Nat) : Bool :=
  decide (os.1 % 1024 = 0) && decide (1 ≤ os.2) && decide (os.2 ≤ leafSize) &&
    decide (((os.2 : Nat) : WithTop Nat) ≤ maxSubtreeLen os.1)

theorem buildTree_leaves_ok (lsl : Nat → Nat) (leafSize : Nat)
    (hls : 1024 ≤ leafSize)
    (H : ∀ n, 1024 < n → 1024 ∣ lsl n ∧ 0 < lsl n ∧ lsl n < n) :
    ∀ fuel offset size t, 1024 ∣ offset → 1 ≤ size →
      buildTree lsl leafSize fuel offset size = some t →
      (collectLeaves t).all (leafOK leafSize) = true := by
  intro fuel
  induction fuel with
  | zero => intro _ _ _ _ _ h; simp [buildTree] at h
  | succ f ih =>
    intro offset size t hoff hsz ht
    rw [buildTree] at ht
    by_cases hguard : size ≤ leafSize ∧ ((size : Nat) : WithTop Nat) ≤ maxSubtreeLen offset
    · rw [if_pos hguard] at ht
      obtain rfl : BTree.leaf offset size = t := by
        simpa using ht
      simp only [collectLeaves, List.all_cons, List.all_nil, Bool.and_true, leafOK,
        Bool.and_eq_true, decide_eq_true_eq]
      exact ⟨⟨⟨Nat.mod_eq_zero_of_dvd hoff, hsz⟩, hguard.1⟩, hguard.2⟩
    · rw [if_neg hguard] at ht
      have hbig : 1024 < size := by
        by_contra hsmall
        apply hguard
        refine ⟨by omega, ?_⟩
        refine le_trans ?_ (le_maxSubtreeLen offset)
        exact_mod_cast (show size ≤ 1024 by omega)
      obtain ⟨hLdvd, hL0, hLlt⟩ := H size hbig
      rcases hleq : buildTree lsl leafSize f offset (lsl size) with _ | l
      · rw [hleq] at ht; simp at ht
      rcases hreq : buildTree lsl leafSize f (offset + lsl size) (size - lsl size)
        with _ | r
      · rw [hleq, hreq] at ht; simp at ht
      rw [hleq, hreq] at ht
      obtain rfl : BTree.node offset size l r = t := by simpa using ht
      have hall_l := ih offset (lsl size) l hoff (by omega) hleq
      have hall_r := ih (offset + lsl size) (size - lsl size) r
        (Nat.dvd_add hoff hLdvd) (by omega) hreq
      simp [collectLeaves, List.all_append, hall_l, hall_r]

/-! ### Paths into the planned tree

The JS node arena addresses nodes by integer ids with `parentId`, `leftId`,
`rightId` links; `#buildTree` only ever creates the links of a binary tree,
so ids are in bijection with tree positions.  A position is a `List Bool`
read deepest-step-first: `[]` is the root (`parentId = null`), `d :: p` is
the child in direction `d` (`true` = right) of the node at `p`, and the
parent of `d :: p` is `p`. -/

def childD (d : Bool) : BTree → Option BTree
  | .leaf _ _ => none
  | .node _ _ l r => some (if d then r else l)

/-- The subtree at a position (`nodeMap.get`). -/
def nodeAt (t : BTree) : List Bool → Option BTree
  | [] => some t
  | d :: p => (nodeAt t p).bind (childD d)

/-- Positions of the leaves, in left-to-right order (matching
`#collectLeaves`). -/
def leafPaths : BTree → List (List Bool)
  | .leaf _ _ => [[]]
  | .node _ _ l r =>
      (leafPaths l).map (fun p => p ++ [false]) ++
        (leafPaths r).map (fun p => p ++ [true])

/-- Positions of the inner nodes. -/
def innerPaths : BTree → List (List Bool)
  | .leaf _ _ => []
  | .node _ _ l r =>
      [] :: ((innerPaths l).map (fun p => p ++ [false]) ++
        (innerPaths r).map (fun p => p ++ [true]))

/-! ### The sequential merge `#mergeTree`

JavaScript (`streaming-hasher.js` lines 337-346):

```
#mergeTree(nodeId, cvMap, isRoot) {
  const node = this.#nodeMap.get(nodeId);
  if (node.type === 'leaf') return cvMap.get(nodeId);
  const leftCV = this.#mergeTree(node.leftId, cvMap, false);
  const rightCV = this.#mergeTree(node.rightId, cvMap, false);
  return isRoot ? root_hash(leftCV, rightCV) : parent_cv(leftCV, rightCV);
}
```

`cvOf` maps a leaf position to its chaining value (the entry of `cvMap` for
the leaf id); `pf` and `rf` are `parent_cv` and `root_hash`. -/

def mergeTree (pf rf : cv → cv → cv) (cvOf : List Bool → cv) :
    BTree → List Bool → Bool → cv
  | .leaf _ _, q, _ => cvOf q
  | .node _ _ l r, q, isRoot =>
      let leftCV := mergeTree pf rf cvOf l (false :: q) false
      let rightCV := mergeTree pf rf cvOf r (true :: q) false
      if isRoot then rf leftCV rightCV else pf leftCV rightCV

/-! ### The bubble-up combiner

JavaScript (`streaming-hasher.js` lines 228-247, identical in the SAB
variant):

```
const bubbleUp = (nodeId) => {
  const node = this.#nodeMap.get(nodeId);
  if (node.parentId === null) { resolveRoot(cvMap.get(nodeId)); return; }
  const parent = this.#nodeMap.get(node.parentId);
  const leftCv = cvMap.get(parent.leftId);
  const rightCv = cvMap.get(parent.rightId);
  if (leftCv && rightCv) {
    const isRoot = parent.parentId === null;
    const mergedCv = isRoot ? root_hash(leftCv, rightCv) : parent_cv(leftCv, rightCv);
    cvMap.set(parent.id, mergedCv);
    bubbleUp(parent.id);
  }
};
```

The state records the `cvMap`, the root promise (`none` = still pending,
resolved at most once), and — as observable instrumentation — the trace of
merge events `(parent position, used root_hash?)` in the order the
primitives were invoked. -/

structure CombState (cv : Type) where
  cvMap : List Bool → Option cv
  root : Option cv
  trace : List (List Bool × Bool)

def initState : CombState cv := ⟨fun _ => none, none, []⟩

def bubbleUp (pf rf : cv → cv → cv) : List Bool → CombState cv → CombState cv
  | [], st => if st.root.isSome then st else { st with root := st.cvMap [] }
  | _ :: par, st =>
    match st.cvMap (false :: par), st.cvMap (true :: par) with
    | some leftCv, some rightCv =>
        let isRoot := par.isEmpty
        let mergedCv := if isRoot then rf leftCv rightCv else pf leftCv rightCv
        bubbleUp pf rf par
          { st with
              cvMap := fun q => if q = par then some mergedCv else st.cvMap q,
              trace := st.trace ++ [(par, isRoot)] }
    | _, _ => st

/-- Leaf-completion handler: `cvMap.set(leafId, cv); bubbleUp(leafId)`. -/
def deliver (pf rf : cv → cv → cv) (p : List Bool) (v : cv)
    (st : CombState cv) : CombState cv :=
  bubbleUp pf rf p
    { st with cvMap := fun q => if q = p then some v else st.cvMap q }

/-- Deliver the chaining value of every leaf in the order given by `σ`
(worker completion order). -/
def deliverAll (pf rf : cv → cv → cv) (cvOf : List Bool → cv)
    (σ : List (List Bool)) (st : CombState cv) : CombState cv :=
  σ.foldl (fun s p => deliver pf rf p (cvOf p) s) st

/-! ### Path lemmas -/

theorem nodeAt_leaf_cons (o s : Nat) (d : Bool) (p : List Bool) :
    nodeAt (.leaf o s) (d :: p) = none := by
  induction p generalizing d with
  | nil => rfl
  | cons e p ih =>
    show (nodeAt (.leaf o s) (e :: p)).bind (childD d) = none
    rw [ih e]
    rfl

theorem nodeAt_append (t : BTree) (p q : List Bool) :
    nodeAt t (p ++ q) = (nodeAt t q).bind (fun s => nodeAt s p) := by
  induction p with
  | nil => simp [nodeAt]
  | cons d p ih =>
    show (nodeAt t (p ++ q)).bind (childD d) = _
    rw [ih]
    cases nodeAt t q with
    | none => rfl
    | some s => rfl

theorem nodeAt_concat_node {t : BTree} {o s : Nat} {l r : BTree} (q : List Bool)
    (h : nodeAt t q = some (.node o s l r)) (d : Bool) :
    nodeAt t ([d] ++ q) = some (if d then r else l) := by
  rw [nodeAt_append, h]
  rfl

theorem mem_leafPaths_iff (t : BTree) (p : List Bool) :
    p ∈ leafPaths t ↔ ∃ o s, nodeAt t p = some (.leaf o s) := by
  induction t generalizing p with
  | leaf o s =>
    simp only [leafPaths, List.mem_singleton]
    constructor
    · rintro rfl; exact ⟨o, s, rfl⟩
    · rintro ⟨o2, s2, h⟩
      cases p with
      | nil => rfl
      | cons d q => rw [nodeAt_leaf_cons] at h; exact absurd h (by simp)
  | node o s l r ihl ihr =>
    simp only [leafPaths, List.mem_append, List.mem_map]
    constructor
    · rintro (⟨q, hq, rfl⟩ | ⟨q, hq, rfl⟩)
      · obtain ⟨o2, s2, h2⟩ := (ihl q).mp hq
        refine ⟨o2, s2, ?_⟩
        rw [show q ++ [false] = q ++ ([false] ++ []) from by simp, nodeAt_append]
        simp [nodeAt, childD, h2]
      · obtain ⟨o2, s2, h2⟩ := (ihr q).mp hq
        refine ⟨o2, s2, ?_⟩
        rw [show q ++ [true] = q ++ ([true] ++ []) from by simp, nodeAt_append]
        simp [nodeAt, childD, h2]
    · rintro ⟨o2, s2, h2⟩
      rcases List.eq_nil_or_concat p with rfl | ⟨q, d, rfl⟩
      · exact absurd h2 (by simp [nodeAt])
      · simp only [List.concat_eq_append] at h2 ⊢
        rw [nodeAt_append] at h2
        replace h2 : nodeAt (if d then r else l) q = some (.leaf o2 s2) := h2
        cases d
        · simp only [if_neg Bool.false_ne_true] at h2
          exact Or.inl ⟨q, (ihl q).mpr ⟨o2, s2, h2⟩, rfl⟩
        · simp only [if_pos rfl] at h2
          exact Or.inr ⟨q, (ihr q).mpr ⟨o2, s2, h2⟩, rfl⟩

theorem mem_innerPaths_iff (t : BTree) (p : List Bool) :
    p ∈ innerPaths t ↔ ∃ o s l r, nodeAt t p = some (.node o s l r) := by
  induction t generalizing p with
  | leaf o s =>
    simp only [innerPaths, List.not_mem_nil, false_iff, not_exists]
    intro o2 s2 l2 r2 h
    cases p with
    | nil => exact absurd h (by simp [nodeAt])
    | cons d q => rw [nodeAt_leaf_cons] at h; exact absurd h (by simp)
  | node o s l r ihl ihr =>
    simp only [innerPaths, List.mem_cons, List.mem_append, List.mem_map]
    constructor
    · rintro (rfl | ⟨q, hq, rfl⟩ | ⟨q, hq, rfl⟩)
      · exact ⟨o, s, l, r, rfl⟩
      · obtain ⟨o2, s2, l2, r2, h2⟩ := (ihl q).mp hq
        refine ⟨o2, s2, l2, r2, ?_⟩
        rw [show q ++ [false] = q ++ ([false] ++ []) from by simp, nodeAt_append]
        simp [nodeAt, childD, h2]
      · obtain ⟨o2, s2, l2, r2, h2⟩ := (ihr q).mp hq
        refine ⟨o2, s2, l2, r2, ?_⟩
        rw [show q ++ [true] = q ++ ([true] ++ []) from by simp, nodeAt_append]
        simp [nodeAt, childD, h2]
    · rintro ⟨o2, s2, l2, r2, h2⟩
      rcases List.eq_nil_or_concat p with rfl | ⟨q, d, rfl⟩
      · exact Or.inl rfl
      · simp only [List.concat_eq_append] at h2 ⊢
        rw [nodeAt_append] at h2
        replace h2 : nodeAt (if d then r else l) q = some (.node o2 s2 l2 r2) := h2
        cases d
        · simp only [if_neg Bool.false_ne_true] at h2
          exact Or.inr (Or.inl ⟨q, (ihl q).mpr ⟨o2, s2, l2, r2, h2⟩, rfl⟩)
        · simp only [if_pos rfl] at h2
          exact Or.inr (Or.inr ⟨q, (ihr q).mpr ⟨o2, s2, l2, r2, h2⟩, rfl⟩)

theorem leafPaths_nodup (t : BTree) : (leafPaths t).Nodup := by
  induction t with
  | leaf o s => simp [leafPaths]
  | node o s l r ihl ihr =>
    simp only [leafPaths]
    refine List.Nodup.append ?_ ?_ ?_
    · exact ihl.map fun a b h => List.append_cancel_right h
    · exact ihr.map fun a b h => List.append_cancel_right h
    · intro p hp hq
      obtain ⟨a, _, ha⟩ := List.mem_map.mp hp
      obtain ⟨b, _, hb⟩ := List.mem_map.mp hq
      have h2 : ([false] : List Bool) = [true] :=
        (List.append_inj' (ha.trans hb.symm) rfl).2
      simp at h2

theorem innerPaths_nodup (t : BTree) : (innerPaths t).Nodup := by
  induction t with
  | leaf o s => simp [innerPaths]
  | node o s l r ihl ihr =>
    simp only [innerPaths]
    refine List.Nodup.cons ?_ (List.Nodup.append
      (ihl.map fun a b h => List.append_cancel_right h)
      (ihr.map fun a b h => List.append_cancel_right h) ?_)
    · intro hmem
      rcases List.mem_append.mp hmem with h | h
      · obtain ⟨a, _, ha⟩ := List.mem_map.mp h
        exact absurd ha (by simp)
      · obtain ⟨a, _, ha⟩ := List.mem_map.mp h
        exact absurd ha (by simp)
    · intro p hp hq
      obtain ⟨a, _, ha⟩ := List.mem_map.mp hp
      obtain ⟨b, _, hb⟩ := List.mem_map.mp hq
      have h2 : ([false] : List Bool) = [true] :=
        (List.append_inj' (ha.trans hb.symm) rfl).2
      simp at h2

/-- Every valid position has a leaf below it. -/
theorem exists_leaf_suffix {t : BTree} {q : List Bool} {sub : BTree}
    (h : nodeAt t q = some sub) : ∃ p ∈ leafPaths t, q <:+ p := by
  induction sub generalizing q with
  | leaf o s =>
    exact ⟨q, (mem_leafPaths_iff t q).mpr ⟨o, s, h⟩, List.suffix_refl q⟩
  | node o s l r ihl ihr =>
    have hl : nodeAt t (false :: q) = some l := by
      show (nodeAt t q).bind (childD false) = some l
      rw [h]; rfl
    obtain ⟨p, hp, hsuf⟩ := ihl hl
    exact ⟨p, hp, (List.suffix_cons false q).trans hsuf⟩

/-- A leaf position has no other leaf position above or below it. -/
theorem leaf_suffix_eq {t : BTree} {p₀ p : List Bool}
    (h₀ : p₀ ∈ leafPaths t) (h : p ∈ leafPaths t) (hsuf : p₀ <:+ p) : p₀ = p := by
  obtain ⟨o, s, ha⟩ := (mem_leafPaths_iff t p₀).mp h₀
  obtain ⟨o2, s2, hb⟩ := (mem_leafPaths_iff t p).mp h
  obtain ⟨pre, rfl⟩ := hsuf
  cases pre with
  | nil => rfl
  | cons d q =>
    rw [show (d :: q) ++ p₀ = (d :: q) ++ p₀ from rfl, nodeAt_append, ha] at hb
    replace hb : nodeAt (BTree.leaf o s) (d :: q) = some (.leaf o2 s2) := hb
    rw [nodeAt_leaf_cons] at hb
    exact absurd hb (by simp)

/-! ### Completeness of a set of delivered leaves below a position -/

/-- All leaves below position `q` belong to the delivered set `S`. -/
def Complete (t : BTree) (S : List (List Bool)) (q : List Bool) : Prop :=
  ∀ p ∈ leafPaths t, q <:+ p → p ∈ S

instance (t : BTree) (S : List (List Bool)) (q : List Bool) :
    Decidable (Complete t S q) :=
  List.decidableBAll _ _

theorem Complete.mono {t : BTree} {S : List (List Bool)} {q r : List Bool}
    (hsuf : r <:+ q) (h : Complete t S r) : Complete t S q :=
  fun p hp hqp => h p hp (hsuf.trans hqp)

theorem strict_suffix_cons {r : List Bool} {d : Bool} {par : List Bool} :
    (r ≠ d :: par ∧ r <:+ (d :: par)) ↔ r <:+ par := by
  constructor
  · rintro ⟨hne, hsuf⟩
    rcases List.suffix_cons_iff.mp hsuf with h | h
    · exact absurd h hne
    · exact h
  · intro h
    refine ⟨fun he => ?_, List.suffix_cons_iff.mpr (Or.inr h)⟩
    have := h.length_le
    subst he
    simp at this

theorem Complete_child_iff {t : BTree} {S : List (List Bool)} {par : List Bool}
    {o s : Nat} {l r : BTree} (hpar : nodeAt t par = some (.node o s l r)) :
    Complete t S par ↔ Complete t S (false :: par) ∧ Complete t S (true :: par) := by
  constructor
  · intro h
    exact ⟨h.mono (List.suffix_cons false par), h.mono (List.suffix_cons true par)⟩
  · rintro ⟨hl, hr⟩ p hp hsuf
    obtain ⟨pre, rfl⟩ := hsuf
    rcases List.eq_nil_or_concat pre with rfl | ⟨q, d, rfl⟩
    · obtain ⟨o2, s2, hleaf⟩ := (mem_leafPaths_iff t _).mp hp
      rw [List.nil_append] at hleaf
      rw [hleaf] at hpar
      exact absurd (Option.some_inj.mp hpar) (by simp)
    · rw [List.concat_eq_append, List.append_assoc] at hp ⊢
      have hd : (d :: par) <:+ q ++ ([d] ++ par) := ⟨q, rfl⟩
      cases d
      · exact hl _ hp hd
      · exact hr _ hp hd

theorem Complete_leaf_iff {t : BTree} {S : List (List Bool)} {p₀ : List Bool}
    (h₀ : p₀ ∈ leafPaths t) : Complete t S p₀ ↔ p₀ ∈ S := by
  constructor
  · intro h
    exact h p₀ h₀ (List.suffix_refl p₀)
  · intro hmem p hp hsuf
    rw [← leaf_suffix_eq h₀ hp hsuf]
    exact hmem

theorem not_Complete_nil {t : BTree} {q : List Bool} {sub : BTree}
    (h : nodeAt t q = some sub) : ¬Complete t [] q := by
  intro hc
  obtain ⟨p, hp, hsuf⟩ := exists_leaf_suffix h
  exact absurd (hc p hp hsuf) (List.not_mem_nil p)

/-! ### Deterministic value of every position -/

/-- The chaining value the combiner is supposed to store at position `q`:
`root_hash`-merged at the root, `parent_cv`-merged at inner positions, the
delivered value at leaves. -/
def valAt (pf rf : cv → cv → cv) (cvOf : List Bool → cv) (t : BTree)
    (q : List Bool) : Option cv :=
  (nodeAt t q).map fun sub => mergeTree pf rf cvOf sub q q.isEmpty

theorem valAt_leaf {pf rf : cv → cv → cv} {cvOf : List Bool → cv} {t : BTree}
    {q : List Bool} {o s : Nat} (h : nodeAt t q = some (.leaf o s)) :
    valAt pf rf cvOf t q = some (cvOf q) := by
  rw [valAt, h]
  rfl

theorem valAt_child {pf rf : cv → cv → cv} {cvOf : List Bool → cv} {t : BTree}
    {q : List Bool} {o s : Nat} {l r : BTree} (h : nodeAt t q = some (.node o s l r))
    (d : Bool) :
    valAt pf rf cvOf t (d :: q) =
      some (mergeTree pf rf cvOf (if d then r else l) (d :: q) false) := by
  rw [valAt]
  have hstep : nodeAt t (d :: q) = some (if d then r else l) := by
    show (nodeAt t q).bind (childD d) = _
    rw [h]
    rfl
  rw [hstep]
  rfl

theorem valAt_node {pf rf : cv → cv → cv} {cvOf : List Bool → cv} {t : BTree}
    {q : List Bool} {o s : Nat} {l r : BTree}
    (h : nodeAt t q = some (.node o s l r)) :
    valAt pf rf cvOf t q =
      some (if q.isEmpty then
          rf (mergeTree pf rf cvOf l (false :: q) false)
            (mergeTree pf rf cvOf r (true :: q) false)
        else
          pf (mergeTree pf rf cvOf l (false :: q) false)
            (mergeTree pf rf cvOf r (true :: q) false)) := by
  rw [valAt, h]
  rfl

/-! ### Permutation bookkeeping for filters -/

theorem filter_perm_cons {α : Type} [DecidableEq α] {l : List α} {a : α}
    {p₁ p₂ : α → Bool} (hnd : l.Nodup) (ha : a ∈ l) (hp₁a : p₁ a = true)
    (hp₂a : p₂ a = false) (hagree : ∀ b ∈ l, b ≠ a → p₁ b = p₂ b) :
    (l.filter p₁).Perm (a :: l.filter p₂) := by
  induction l with
  | nil => exact absurd ha (List.not_mem_nil a)
  | cons x xs ih =>
    rcases List.mem_cons.mp ha with rfl | hmem
    · have hxs : xs.filter p₁ = xs.filter p₂ := by
        apply List.filter_congr
        intro b hb
        exact hagree b (List.mem_cons_of_mem _ hb)
          (fun hba => (List.nodup_cons.mp hnd).1 (hba ▸ hb))
      rw [List.filter_cons_of_pos hp₁a, List.filter_cons_of_neg (by simp [hp₂a]), hxs]
    · have hxa : x ≠ a := fun hxa => (List.nodup_cons.mp hnd).1 (hxa ▸ hmem)
      have hx12 : p₁ x = p₂ x := hagree x (List.mem_cons_self x xs) hxa
      have ih2 := ih (List.nodup_cons.mp hnd).2 hmem
        (fun b hb hba => hagree b (List.mem_cons_of_mem _ hb) hba)
      cases hpx : p₁ x with
      | true =>
        rw [List.filter_cons_of_pos hpx,
          List.filter_cons_of_pos (hx12 ▸ hpx)]
        exact (ih2.cons x).trans (List.Perm.swap a x _)
      | false =>
        rw [List.filter_cons_of_neg (by simp [hpx]),
          List.filter_cons_of_neg (by simp [hx12 ▸ hpx])]
        exact ih2

/-! ### The combiner invariant -/

/-- Strict ancestry: `r` is a proper ancestor of `q` (a proper suffix, since
paths grow at the head). -/
def StrictAnc (r q : List Bool) : Prop := r ≠ q ∧ r <:+ q

instance (r q : List Bool) : Decidable (StrictAnc r q) :=
  inferInstanceAs (Decidable (_ ∧ _))

theorem strictAnc_cons {r : List Bool} {d : Bool} {par : List Bool} :
    StrictAnc r (d :: par) ↔ r <:+ par := strict_suffix_cons

theorem not_strictAnc_self (q : List Bool) : ¬StrictAnc q q := fun h => h.1 rfl

theorem not_strictAnc_nil (r : List Bool) : ¬StrictAnc r [] := by
  rintro ⟨hne, hsuf⟩
  exact hne (List.suffix_nil.mp hsuf)

/-- Per-position correctness of the `cvMap` relative to a delivered set. -/
def MapOK (pf rf : cv → cv → cv) (cvOf : List Bool → cv) (t : BTree)
    (S : List (List Bool)) (st : CombState cv) (r : List Bool) : Prop :=
  ((nodeAt t r).isSome = true ∧ Complete t S r →
    st.cvMap r = valAt pf rf cvOf t r) ∧
  (¬((nodeAt t r).isSome = true ∧ Complete t S r) → st.cvMap r = none)

theorem bubbleUp_spec {pf rf : cv → cv → cv} {cvOf : List Bool → cv} {t : BTree}
    (S' : List (List Bool)) :
    ∀ (q : List Bool) (st : CombState cv) (sub : BTree),
      nodeAt t q = some sub →
      Complete t S' q →
      (∀ r, ¬StrictAnc r q → MapOK pf rf cvOf t S' st r) →
      (∀ r, StrictAnc r q → st.cvMap r = none) →
      st.root = none →
      ((st.trace.map Prod.fst).Perm ((innerPaths t).filter
        (fun r => decide (Complete t S' r) && !(decide (StrictAnc r q))))) →
      (∀ e ∈ st.trace, e.2 = e.1.isEmpty) →
      (∀ r, MapOK pf rf cvOf t S' (bubbleUp pf rf q st) r) ∧
      ((bubbleUp pf rf q st).root =
        if Complete t S' [] then valAt pf rf cvOf t [] else none) ∧
      (((bubbleUp pf rf q st).trace.map Prod.fst).Perm ((innerPaths t).filter
        (fun r => decide (Complete t S' r)))) ∧
      (∀ e ∈ (bubbleUp pf rf q st).trace, e.2 = e.1.isEmpty) := by
  intro q
  induction q with
  | nil =>
    intro st sub hsub hC H1 H2 H3 H4 H5
    have hroot_eq : bubbleUp pf rf [] st = { st with root := st.cvMap [] } := by
      rw [bubbleUp, H3]
      rfl
    have hvalid : (nodeAt t ([] : List Bool)).isSome = true := by simp [nodeAt]
    have hcv : st.cvMap [] = valAt pf rf cvOf t [] :=
      (H1 [] (not_strictAnc_nil [])).1 ⟨hvalid, hC⟩
    refine ⟨?_, ?_, ?_, ?_⟩
    · intro r
      rw [hroot_eq]
      exact H1 r (not_strictAnc_nil r)
    · rw [hroot_eq, if_pos hC]
      exact hcv
    · rw [hroot_eq]
      refine H4.trans (List.Perm.of_eq (List.filter_congr ?_))
      intro r _
      simp [not_strictAnc_nil r]
    · rw [hroot_eq]
      exact H5
  | cons d par ih =>
    intro st sub hsub hC H1 H2 H3 H4 H5
    -- The parent is an inner node with the two children at `false/true :: par`.
    have hbind : (nodeAt t par).bind (childD d) = some sub := hsub
    rcases hpar : nodeAt t par with _ | psub
    · rw [hpar] at hbind; exact absurd hbind (by simp)
    rcases psub with ⟨o2, s2⟩ | ⟨o2, s2, l2, r2⟩
    · rw [hpar] at hbind
      exact absurd hbind (by simp [childD])
    have hchild : ∀ e : Bool, nodeAt t (e :: par) = some (if e then r2 else l2) := by
      intro e
      show (nodeAt t par).bind (childD e) = _
      rw [hpar]
      rfl
    have hq_child : ∀ e : Bool, ¬StrictAnc (e :: par) (d :: par) := by
      intro e h
      have := (strictAnc_cons.mp h).length_le
      simp at this
    by_cases hCpar : Complete t S' par
    · -- Both children are complete: the merge fires and we recurse upward.
      have hCboth := (Complete_child_iff hpar).mp hCpar
      have hcvl : st.cvMap (false :: par) =
          some (mergeTree pf rf cvOf l2 (false :: par) false) := by
        have h := (H1 (false :: par) (hq_child false)).1
          ⟨by simp [hchild false], hCboth.1⟩
        rw [h, valAt_child hpar false]
        simp
      have hcvr : st.cvMap (true :: par) =
          some (mergeTree pf rf cvOf r2 (true :: par) false) := by
        have h := (H1 (true :: par) (hq_child true)).1
          ⟨by simp [hchild true], hCboth.2⟩
        rw [h, valAt_child hpar true]
        simp
      set lcv := mergeTree pf rf cvOf l2 (false :: par) false with hlcv
      set rcv := mergeTree pf rf cvOf r2 (true :: par) false with hrcv
      set merged := if par.isEmpty then rf lcv rcv else pf lcv rcv with hmerged
      set st₂ : CombState cv :=
        { st with
            cvMap := fun p => if p = par then some merged else st.cvMap p,
            trace := st.trace ++ [(par, par.isEmpty)] } with hst₂
      have hstep : bubbleUp pf rf (d :: par) st = bubbleUp pf rf par st₂ := by
        rw [bubbleUp, hcvl, hcvr]
      have hvalpar : valAt pf rf cvOf t par = some merged := by
        rw [valAt_node hpar, hmerged, hlcv, hrcv]
      have hparvalid : (nodeAt t par).isSome = true := by simp [hpar]
      -- Establish the hypotheses of the inductive step at `par`.
      have H1₂ : ∀ r, ¬StrictAnc r par → MapOK pf rf cvOf t S' st₂ r := by
        intro r hr
        by_cases hrp : r = par
        · subst hrp
          constructor
          · intro _
            show (if r = r then some merged else st.cvMap r) = _
            rw [if_pos rfl, hvalpar]
          · intro hn
            exact absurd ⟨hparvalid, hCpar⟩ hn
        · have hmap : st₂.cvMap r = st.cvMap r := by
            show (if r = par then some merged else st.cvMap r) = _
            rw [if_neg hrp]
          have hnanc : ¬StrictAnc r (d :: par) := by
            intro hanc
            exact hr ⟨hrp, strictAnc_cons.mp hanc⟩
          have h := H1 r hnanc
          exact ⟨fun hh => hmap.trans (h.1 hh), fun hh => hmap.trans (h.2 hh)⟩
      have H2₂ : ∀ r, StrictAnc r par → st₂.cvMap r = none := by
        intro r hr
        have hrp : r ≠ par := hr.1
        have hmap : st₂.cvMap r = st.cvMap r := by
          show (if r = par then some merged else st.cvMap r) = _
          rw [if_neg hrp]
        rw [hmap]
        refine H2 r ⟨?_, List.suffix_cons_iff.mpr (Or.inr hr.2)⟩
        intro he
        have := hr.2.length_le
        rw [he] at this
        simp at this
      have H3₂ : st₂.root = none := H3
      have hparInner : par ∈ innerPaths t :=
        (mem_innerPaths_iff t par).mpr ⟨o2, s2, l2, r2, hpar⟩
      have H4₂ : (st₂.trace.map Prod.fst).Perm ((innerPaths t).filter
          (fun r => decide (Complete t S' r) && !(decide (StrictAnc r par)))) := by
      -- st₂ trace = st.trace ++ [(par, _)]
        have htr : st₂.trace.map Prod.fst = st.trace.map Prod.fst ++ [par] := by
          simp [hst₂]
        rw [htr]
        have hperm1 : (st.trace.map Prod.fst ++ [par]).Perm
            (par :: st.trace.map Prod.fst) := List.perm_append_singleton par _
        refine hperm1.trans ?_
        have hfp : ((innerPaths t).filter
            (fun r => decide (Complete t S' r) && !(decide (StrictAnc r par)))).Perm
            (par :: (innerPaths t).filter
              (fun r => decide (Complete t S' r) && !(decide (StrictAnc r (d :: par))))) := by
          refine filter_perm_cons (innerPaths_nodup t) hparInner ?_ ?_ ?_
          · simp [hCpar, not_strictAnc_self par]
          · have hanc : StrictAnc par (d :: par) := strictAnc_cons.mpr (List.suffix_refl par)
            simp [hanc]
          · intro b _ hb
            have : StrictAnc b par ↔ StrictAnc b (d :: par) := by
              rw [strictAnc_cons]
              exact ⟨fun h => h.2, fun h => ⟨hb, h⟩⟩
            simp [this]
        exact (H4.cons par).trans hfp.symm
      have H5₂ : ∀ e ∈ st₂.trace, e.2 = e.1.isEmpty := by
        intro e he
        rcases List.mem_append.mp he with h | h
        · exact H5 e h
        · rcases List.mem_singleton.mp h with rfl
          rfl
      rw [hstep]
      exact ih st₂ (.node o2 s2 l2 r2) hpar hCpar H1₂ H2₂ H3₂ H4₂ H5₂
    · -- The sibling is not complete yet: the combiner stops.
      have hCsib : ¬Complete t S' ((!d) :: par) := by
        intro hsib
        apply hCpar
        cases d
        · exact (Complete_child_iff hpar).mpr ⟨hC, by simpa using hsib⟩
        · exact (Complete_child_iff hpar).mpr ⟨by simpa using hsib, hC⟩
      have hcvsib : st.cvMap ((!d) :: par) = none :=
        (H1 _ (hq_child (!d))).2 (fun hh => hCsib hh.2)
      have hcvq : st.cvMap (d :: par) = valAt pf rf cvOf t (d :: par) :=
        (H1 _ (hq_child d)).1 ⟨by simp [hchild d], hC⟩
      have hvq : valAt pf rf cvOf t (d :: par) =
          some (mergeTree pf rf cvOf (if d then r2 else l2) (d :: par) false) :=
        valAt_child hpar d
      have hstep : bubbleUp pf rf (d :: par) st = st := by
        cases d
        · rw [bubbleUp]
          have h1 : st.cvMap (true :: par) = none := by simpa using hcvsib
          rw [h1, hcvq, hvq]
        · rw [bubbleUp]
          have h1 : st.cvMap (false :: par) = none := by simpa using hcvsib
          rw [h1]
      have hnotBelow : ∀ r, StrictAnc r (d :: par) → ¬Complete t S' r := by
        intro r hr hcr
        exact hCpar (hcr.mono (strictAnc_cons.mp hr))
      rw [hstep]
      refine ⟨?_, ?_, ?_, H5⟩
      · intro r
        by_cases hanc : StrictAnc r (d :: par)
        · have hnone := H2 r hanc
          refine ⟨fun hh => absurd hh.2 (hnotBelow r hanc), fun _ => hnone⟩
        · exact H1 r hanc
      · have hnc : ¬Complete t S' [] := by
          intro hcnil
          exact hCpar (hcnil.mono List.nil_suffix)
        rw [if_neg hnc]
        exact H3
      · refine H4.trans (List.Perm.of_eq (List.filter_congr ?_))
        intro r _
        by_cases hanc : StrictAnc r (d :: par)
        · simp [hanc, hnotBelow r hanc]
        · simp [hanc]

/-- Full state invariant after a set `S` of leaves has been delivered. -/
def Inv (pf rf : cv → cv → cv) (cvOf : List Bool → cv) (t : BTree)
    (S : List (List Bool)) (st : CombState cv) : Prop :=
  (∀ r, MapOK pf rf cvOf t S st r) ∧
  (st.root = if Complete t S [] then valAt pf rf cvOf t [] else none) ∧
  ((st.trace.map Prod.fst).Perm ((innerPaths t).filter
    (fun r => decide (Complete t S r)))) ∧
  (∀ e ∈ st.trace, e.2 = e.1.isEmpty)

theorem Complete_S_sub {t : BTree} {S S' : List (List Bool)} {q : List Bool}
    (hsub : ∀ p, p ∈ S → p ∈ S') (h : Complete t S q) : Complete t S' q :=
  fun p hp hs => hsub p (h p hp hs)

theorem Inv_congr {pf rf : cv → cv → cv} {cvOf : List Bool → cv} {t : BTree}
    {S S' : List (List Bool)} {st : CombState cv}
    (hmem : ∀ p, p ∈ S ↔ p ∈ S') (h : Inv pf rf cvOf t S st) :
    Inv pf rf cvOf t S' st := by
  have hc : ∀ q, Complete t S q ↔ Complete t S' q := fun q =>
    ⟨Complete_S_sub (fun p => (hmem p).mp), Complete_S_sub (fun p => (hmem p).mpr)⟩
  obtain ⟨hmap, hroot, htrace, hflags⟩ := h
  refine ⟨?_, ?_, ?_, hflags⟩
  · intro r
    obtain ⟨h1, h2⟩ := hmap r
    exact ⟨fun hh => h1 ⟨hh.1, (hc r).mpr hh.2⟩,
      fun hh => h2 (fun hh2 => hh ⟨hh2.1, (hc r).mp hh2.2⟩)⟩
  · rw [hroot]
    by_cases h0 : Complete t S []
    · rw [if_pos h0, if_pos ((hc []).mp h0)]
    · rw [if_neg h0, if_neg (fun hh => h0 ((hc []).mpr hh))]
  · refine htrace.trans (List.Perm.of_eq (List.filter_congr ?_))
    intro r _
    simp [hc r]

theorem inner_ne_leaf {t : BTree} {r p : List Bool} (hr : r ∈ innerPaths t)
    (hp : p ∈ leafPaths t) : r ≠ p := by
  obtain ⟨o, s, l2, r2, hn⟩ := (mem_innerPaths_iff t r).mp hr
  obtain ⟨o2, s2, hl⟩ := (mem_leafPaths_iff t p).mp hp
  intro he
  rw [he, hl] at hn
  exact absurd (Option.some_inj.mp hn) (by simp)

theorem Inv_init {pf rf : cv → cv → cv} {cvOf : List Bool → cv} {t : BTree} :
    Inv pf rf cvOf t [] (initState : CombState cv) := by
  refine ⟨?_, ?_, ?_, ?_⟩
  · intro r
    constructor
    · rintro ⟨hv, hcomp⟩
      obtain ⟨sub, hs⟩ := Option.isSome_iff_exists.mp hv
      exact absurd hcomp (not_Complete_nil hs)
    · intro _
      rfl
  · rw [if_neg (not_Complete_nil (show nodeAt t [] = some t from rfl))]
    rfl
  · have hnil : (innerPaths t).filter (fun r => decide (Complete t [] r)) = [] := by
      apply List.filter_eq_nil_iff.mpr
      intro r hr
      obtain ⟨o, s, l2, r2, hn⟩ := (mem_innerPaths_iff t r).mp hr
      simp [not_Complete_nil hn]
    rw [hnil]
    rfl
  · intro e he
    exact absurd he (List.not_mem_nil e)

theorem deliver_step {pf rf : cv → cv → cv} {cvOf : List Bool → cv} {t : BTree}
    {S : List (List Bool)} {st : CombState cv} {p₀ : List Bool}
    (hp₀ : p₀ ∈ leafPaths t) (hnot : p₀ ∉ S)
    (hInv : Inv pf rf cvOf t S st) :
    Inv pf rf cvOf t (p₀ :: S) (deliver pf rf p₀ (cvOf p₀) st) := by
  obtain ⟨hmap, hroot, htrace, hflags⟩ := hInv
  obtain ⟨o, s, hleaf⟩ := (mem_leafPaths_iff t p₀).mp hp₀
  set st₁ : CombState cv :=
    { st with cvMap := fun q => if q = p₀ then some (cvOf p₀) else st.cvMap q }
    with hst₁
  have hdel : deliver pf rf p₀ (cvOf p₀) st = bubbleUp pf rf p₀ st₁ := rfl
  -- transfer of completeness across adding `p₀`
  have htransfer : ∀ r, ¬StrictAnc r p₀ → r ≠ p₀ →
      (Complete t (p₀ :: S) r ↔ Complete t S r) := by
    intro r hanc hne
    constructor
    · intro h p hp hs
      rcases List.mem_cons.mp (h p hp hs) with rfl | hmem
      · exact absurd ⟨hne, hs⟩ hanc
      · exact hmem
    · exact Complete_S_sub (fun p hp => List.mem_cons_of_mem _ hp)
  have H1 : ∀ r, ¬StrictAnc r p₀ → MapOK pf rf cvOf t (p₀ :: S) st₁ r := by
    intro r hanc
    by_cases hrp : r = p₀
    · subst hrp
      constructor
      · intro _
        show (if r = r then some (cvOf r) else st.cvMap r) = _
        rw [if_pos rfl, valAt_leaf hleaf]
      · intro hn
        exact absurd ⟨by simp [hleaf], (Complete_leaf_iff hp₀).mpr (List.mem_cons_self _ _)⟩ hn
    · have hmap1 : st₁.cvMap r = st.cvMap r := by
        show (if r = p₀ then some (cvOf p₀) else st.cvMap r) = _
        rw [if_neg hrp]
      obtain ⟨h1, h2⟩ := hmap r
      constructor
      · intro hh
        rw [hmap1]
        exact h1 ⟨hh.1, (htransfer r hanc hrp).mp hh.2⟩
      · intro hh
        rw [hmap1]
        exact h2 (fun hh2 => hh ⟨hh2.1, (htransfer r hanc hrp).mpr hh2.2⟩)
  have H2 : ∀ r, StrictAnc r p₀ → st₁.cvMap r = none := by
    intro r hanc
    have hmap1 : st₁.cvMap r = st.cvMap r := by
      show (if r = p₀ then some (cvOf p₀) else st.cvMap r) = _
      rw [if_neg hanc.1]
    rw [hmap1]
    refine (hmap r).2 ?_
    rintro ⟨hv, hcomp⟩
    exact hnot (hcomp p₀ hp₀ hanc.2)
  have H3 : st₁.root = none := by
    show st.root = none
    rw [hroot, if_neg]
    intro hcomp
    exact hnot (hcomp p₀ hp₀ List.nil_suffix)
  have H4 : (st₁.trace.map Prod.fst).Perm ((innerPaths t).filter
      (fun r => decide (Complete t (p₀ :: S) r) && !(decide (StrictAnc r p₀)))) := by
    show (st.trace.map Prod.fst).Perm _
    refine htrace.trans (List.Perm.of_eq (List.filter_congr ?_))
    intro r hr
    have hne : r ≠ p₀ := inner_ne_leaf hr hp₀
    by_cases hanc : StrictAnc r p₀
    · have hnc : ¬Complete t S r := fun hcomp => hnot (hcomp p₀ hp₀ hanc.2)
      simp [hanc, hnc]
    · simp [htransfer r hanc hne, hanc]
  rw [hdel]
  exact bubbleUp_spec (p₀ :: S) p₀ st₁ (.leaf o s) hleaf
    ((Complete_leaf_iff hp₀).mpr (List.mem_cons_self _ _)) H1 H2 H3 H4 hflags

theorem deliverAll_inv {pf rf : cv → cv → cv} {cvOf : List Bool → cv} {t : BTree} :
    ∀ (σ : List (List Bool)) (S : List (List Bool)) (st : CombState cv),
      (∀ p ∈ σ, p ∈ leafPaths t) → (∀ p ∈ σ, p ∉ S) → σ.Nodup →
      Inv pf rf cvOf t S st →
      Inv pf rf cvOf t (σ.reverse ++ S) (deliverAll pf rf cvOf σ st) := by
  intro σ
  induction σ with
  | nil =>
    intro S st _ _ _ hInv
    exact hInv
  | cons p σ ih =>
    intro S st hleaves hfresh hnd hInv
    have hstep := deliver_step (hleaves p (List.mem_cons_self _ _))
      (hfresh p (List.mem_cons_self _ _)) hInv
    have hnext := ih (p :: S) (deliver pf rf p (cvOf p) st)
      (fun q hq => hleaves q (List.mem_cons_of_mem _ hq))
      (fun q hq hmem => by
        rcases List.mem_cons.mp hmem with rfl | hmem2
        · exact (List.nodup_cons.mp hnd).1 hq
        · exact hfresh q (List.mem_cons_of_mem _ hq) hmem2)
      (List.nodup_cons.mp hnd).2 hstep
    refine Inv_congr ?_ hnext
    intro q
    simp only [List.mem_append, List.mem_cons, List.reverse_cons, List.mem_reverse]
    tauto

/-- Determinism of the bubble-up combiner: delivering the leaf values in any
order that is a permutation of the leaf positions resolves the root with the
sequential `#mergeTree` digest, performs exactly one merge per inner node,
and flags exactly the root merge as the root-finalizing one. -/
theorem deliverAll_final {pf rf : cv → cv → cv} {cvOf : List Bool → cv} {t : BTree}
    {σ : List (List Bool)} (hperm : σ.Perm (leafPaths t)) :
    (deliverAll pf rf cvOf σ (initState : CombState cv)).root =
      some (mergeTree pf rf cvOf t [] true) ∧
    (((deliverAll pf rf cvOf σ (initState : CombState cv)).trace.map Prod.fst).Perm
      (innerPaths t)) ∧
    (∀ e ∈ (deliverAll pf rf cvOf σ (initState : CombState cv)).trace,
      e.2 = e.1.isEmpty) := by
  have hnd : σ.Nodup := hperm.nodup_iff.mpr (leafPaths_nodup t)
  have hinv := deliverAll_inv σ [] initState
    (fun p hp => hperm.subset hp) (fun p _ hmem => absurd hmem (List.not_mem_nil p))
    hnd (@Inv_init cv pf rf cvOf t)
  have hmem : ∀ p, p ∈ σ.reverse ++ [] ↔ p ∈ leafPaths t := by
    intro p
    simp only [List.append_nil, List.mem_reverse]
    exact ⟨fun h => hperm.subset h, fun h => (hperm.mem_iff).mpr h⟩
  have hinv2 := Inv_congr hmem hinv
  obtain ⟨hmap, hroot, htrace, hflags⟩ := hinv2
  have hcompleteAll : ∀ q sub, nodeAt t q = some sub → Complete t (leafPaths t) q :=
    fun q sub _ p hp _ => hp
  refine ⟨?_, ?_, hflags⟩
  · rw [hroot, if_pos (hcompleteAll [] t rfl)]
    rfl
  · refine htrace.trans (List.Perm.of_eq (List.filter_eq_self.mpr ?_))
    intro r hr
    obtain ⟨o, s, l2, r2, hn⟩ := (mem_innerPaths_iff t r).mp hr
    simp [hcompleteAll r _ hn]

/-! ### Leaf chaining values of the real pipeline

`hashFileStreaming` fills each leaf buffer with the bytes
`x[leaf.offset .. leaf.offset + leaf.size)` of the single-pass stream and the
worker computes `hash_subtree(bytes, leaf.offset)`; the result is stored in
`cvMap` under the leaf id.  `leafCVof` is that assignment, indexed by leaf
position. -/

def leafCVof (P : Blake3Prims cv) (x : List Nat) (t : BTree)
    (p : List Bool) : cv :=
  match nodeAt t p with
  | some (.leaf off sz) => hashSubtree P ((x.drop off).take sz) off
  | _ => P.chunkCV [] 0

/-- Key refinement lemma: the planner emits exactly the canonical BLAKE3
recursion, so the `parent_cv`-merge of the leaf chaining values of any planned
subtree equals `hash_subtree` of the subtree byte range. -/
theorem mergeTree_eq_hashSubtree (P : Blake3Prims cv) (x : List Nat)
    (leafSize : Nat) (hls : 1024 ≤ leafSize) (t : BTree) :
    ∀ fuel offset size sub q,
      buildTree leftSubtreeLen leafSize fuel offset size = some sub →
      nodeAt t q = some sub →
      offset + size ≤ x.length →
      mergeTree P.parent P.root (leafCVof P x t) sub q false =
        hashSubtree P ((x.drop offset).take size) offset := by
  intro fuel
  induction fuel with
  | zero => intro offset size sub q h; simp [buildTree] at h
  | succ f ih =>
    intro offset size sub q hb hq havail
    rw [buildTree] at hb
    by_cases hguard : size ≤ leafSize ∧ ((size : Nat) : WithTop Nat) ≤ maxSubtreeLen offset
    · rw [if_pos hguard] at hb
      obtain rfl : BTree.leaf offset size = sub := by simpa using hb
      rw [mergeTree, leafCVof, hq]
    · rw [if_neg hguard] at hb
      have hbig : 1024 < size := by
        by_contra hsmall
        apply hguard
        refine ⟨by omega, le_trans ?_ (le_maxSubtreeLen offset)⟩
        exact_mod_cast (show size ≤ 1024 by omega)
      obtain ⟨hL0, hLlt, _⟩ := leftSubtreeLen_bounds hbig
      rcases hleq : buildTree leftSubtreeLen leafSize f offset (leftSubtreeLen size)
        with _ | l
      · rw [hleq] at hb; simp at hb
      rcases hreq : buildTree leftSubtreeLen leafSize f
          (offset + leftSubtreeLen size) (size - leftSubtreeLen size) with _ | r
      · rw [hleq, hreq] at hb; simp at hb
      rw [hleq, hreq] at hb
      obtain rfl : BTree.node offset size l r = sub := by simpa using hb
      have hchild : ∀ e : Bool, nodeAt t (e :: q) = some (if e then r else l) := by
        intro e
        show (nodeAt t q).bind (childD e) = _
        rw [hq]
        rfl
      have ihl := ih offset (leftSubtreeLen size) l (false :: q) hleq
        (by simpa using hchild false) (by omega)
      have ihr := ih (offset + leftSubtreeLen size) (size - leftSubtreeLen size) r
        (true :: q) hreq (by simpa using hchild true) (by omega)
      have hslice_len : ((x.drop offset).take size).length = size := by
        simp only [List.length_take, List.length_drop]
        omega
      rw [mergeTree]
      show P.parent (mergeTree P.parent P.root (leafCVof P x t) l (false :: q) false)
        (mergeTree P.parent P.root (leafCVof P x t) r (true :: q) false) = _
      rw [hashSubtree]
      rw [dif_neg (by omega)]
      rw [hslice_len]
      have htake : ((x.drop offset).take size).take (leftSubtreeLen size) =
          (x.drop offset).take (leftSubtreeLen size) := by
        rw [List.take_take]
        congr 1
        omega
      have hdrop : ((x.drop offset).take size).drop (leftSubtreeLen size) =
          (x.drop (offset + leftSubtreeLen size)).take (size - leftSubtreeLen size) := by
        rw [List.drop_take, List.drop_drop]
      rw [htake, hdrop, ihl, ihr]

/-! ### Worker message handling

`streaming-worker.js` (hash branch):

```
if (type === 'hash') {
  if (!ready) { self.postMessage({ type: 'error', error: 'Worker not initialized', taskId: e.data.taskId }); return; }
  const { data, inputOffset, taskId } = e.data;
  try {
    const view = new Uint8Array(data);
    const cv = hash_subtree(view, BigInt(inputOffset));
    self.postMessage({ type: 'result', cv, taskId });
  } catch (err) { self.postMessage({ type: 'error', error: err.message, taskId }); }
}
```

`StreamingHasher.#dispatchBuffer` posts
`{ type: 'hash', data: buffer, offset: inputOffset, size: buffer.byteLength, taskId }`.
Message objects are records of optional fields (an absent JS property reads
as `undefined`, modelled by `none`).  `BigInt(undefined)` throws a
`TypeError before `hash_subtree` is reached; the `catch` turns it into an
error reply. -/

structure HashMsg where
  data : List Nat
  offset : Option Nat
  inputOffset : Option Nat
  size : Option Nat
  taskId : Nat
deriving DecidableEq

inductive WorkerReply (cv : Type) where
  | result (taskId : Nat) (value : cv)
  | error (taskId : Nat) (message : String)
deriving DecidableEq

/-- The message built by `StreamingHasher.#dispatchBuffer` (line 330): the
file offset travels in the field named `offset`; no `inputOffset` field is
sent. -/
def streamingDispatchHashMsg (buffer : List Nat) (inputOffset taskId : Nat) :
    HashMsg :=
  { data := buffer, offset := some inputOffset, inputOffset := none,
    size := some buffer.length, taskId := taskId }

/-- The hash branch of `streaming-worker.js`. -/
def streamingWorkerOnHash (P : Blake3Prims cv) (ready : Bool) (m : HashMsg) :
    WorkerReply cv :=
  if !ready then .error m.taskId "Worker not initialized"
  else
    match m.inputOffset with
    | none => .error m.taskId "Cannot convert undefined to a BigInt"
    | some off => .result m.taskId (hashSubtree P m.data off)

/-- The message built by `SABStreamHasher.#dispatchTask`:
`{ type: 'hash', offset: sabSlotOffset, fileOffset, size, taskId }`. -/
structure SabHashMsg where
  offset : Nat
  fileOffset : Option Nat
  size : Nat
  taskId : Nat
deriving DecidableEq

def sabDispatchHashMsg (sabSlotOffset fileOffset size taskId : Nat) : SabHashMsg :=
  { offset := sabSlotOffset, fileOffset := some fileOffset, size := size,
    taskId := taskId }

/-- The hash branch of the SAB worker (`sab-worker.js`): reads the slot bytes
`sab[offset .. offset + size)` and uses `fileOffset ?? offset` as the
absolute input offset. -/
def sabWorkerOnHash (P : Blake3Prims cv) (ready : Bool) (sab : List Nat)
    (m : SabHashMsg) : WorkerReply cv :=
  if !ready then .error m.taskId "Worker not initialized"
  else
    .result m.taskId
      (hashSubtree P ((sab.drop m.offset).take m.size) (m.fileOffset.getD m.offset))

/-- The reply the streaming worker sends back for the leaf of the planned
tree `t` at position `p`: the coordinator fills the leaf buffer with
`x[o .. o + s)` and posts it through `#dispatchBuffer`
(`streamingDispatchHashMsg`); the worker answers through its hash branch
(`streamingWorkerOnHash`, after a successful init, so `ready = true`).
Task ids are sequential and do not affect the reply's value, so `0` stands
for them. -/
def streamingLeafReply (P : Blake3Prims cv) (x : List Nat) (t : BTree)
    (p : List Bool) : WorkerReply cv :=
  match nodeAt t p with
  | some (.leaf o s) =>
      streamingWorkerOnHash P true
        (streamingDispatchHashMsg ((x.drop o).take s) o 0)
  | _ => .error 0 "no such leaf"

/-- Did the task's promise resolve (a `result` reply) rather than reject
(an `error` reply)? -/
def replyIsResult : WorkerReply cv → Bool
  | .result _ _ => true
  | .error _ _ => false

/-- The chaining value carried by a `result` reply. The fallback value is
never read on a path where every reply is a `result`. -/
def replyValue (P : Blake3Prims cv) : WorkerReply cv → cv
  | .result _ v => v
  | .error _ _ => P.chunkCV [] 0

/-! ### End-to-end digest models of the two hashers

`hashFileStreamingModel` follows `StreamingHasher.hashFileStreaming`
(`streaming-hasher.js` lines 184-318): inputs of at most one chunk
(`totalBytes <= CHUNK_SIZE`, `CHUNK_SIZE = 1024`) are hashed on the
coordinator with `hash_single`; otherwise the tree is planned, a single-leaf
root falls back to `hash_single`, and a multi-leaf plan streams every leaf
buffer to the worker pool.  Each leaf task's reply is the one the in-repo
streaming worker actually produces (`streamingLeafReply`); a `result` reply
resolves the task's promise with the chaining value, which the `.then`
handler feeds to the bubble-up combiner, while an `error` reply rejects the
promise and the `.catch(err => rejectRoot(err))` handler rejects the root
promise, so `await rootPromise` throws and the call returns no digest
(modelled `none`).  The root resolves only if every leaf task resolves, in
which case the combiner runs over the delivered values.  `σ` is the order
in which worker completions arrive (arbitrary).

`sabHashFileModel` follows `SABStreamHasher.hashFile`; its small-input
shortcut instead tests `file.size < 65536`, and its worker (`sab-worker.js`)
reads the input offset from the `fileOffset` field its dispatcher actually
sends, so each leaf task resolves with
`hash_subtree(leaf bytes, absolute offset)` (`leafCVof`). -/

def hashFileStreamingModel (P : Blake3Prims cv) (leafSize : Nat) (x : List Nat)
    (σ : List (List Bool)) : Option cv :=
  if x.length ≤ 1024 then some (hashSingle P x)
  else
    match buildTree leftSubtreeLen leafSize x.length 0 x.length with
    | none => none
    | some (.leaf _ _) => some (hashSingle P x)
    | some (.node o s l r) =>
        if (leafPaths (.node o s l r)).all
            (fun p => replyIsResult (streamingLeafReply P x (.node o s l r) p)) then
          (deliverAll P.parent P.root
            (fun p => replyValue P (streamingLeafReply P x (.node o s l r) p)) σ
            (initState : CombState cv)).root
        else none

def sabHashFileModel (P : Blake3Prims cv) (chunkSize : Nat) (x : List Nat)
    (σ : List (List Bool)) : Option cv :=
  if x.length < 65536 then some (hashSingle P x)
  else
    match buildTree leftSubtreeLen chunkSize x.length 0 x.length with
    | none => none
    | some (.leaf _ _) => some (hashSingle P x)
    | some (.node o s l r) =>
        (deliverAll P.parent P.root (leafCVof P x (.node o s l r)) σ
          (initState : CombState cv)).root

/-- Does `hashFileStreaming` hand any work to the worker pool? -/
def streamingUsesWorkers (leafSize total : Nat) : Bool :=
  if total ≤ 1024 then false
  else
    match buildTree leftSubtreeLen leafSize total 0 total with
    | some (.node _ _ _ _) => true
    | _ => false

/-- Does `SABStreamHasher.hashFile` hand any work to the worker pool? -/
def sabUsesWorkers (chunkSize total : Nat) : Bool :=
  if total < 65536 then false
  else
    match buildTree leftSubtreeLen chunkSize total 0 total with
    | some (.node _ _ _ _) => true
    | _ => false

/-- The multi-leaf pipeline resolves the root with the reference digest, for
every completion order. -/
theorem pipeline_root_eq (P : Blake3Prims cv) (leafSize : Nat) (x : List Nat)
    (hls : 1024 ≤ leafSize) {o s : Nat} {l r : BTree}
    (ht : buildTree leftSubtreeLen leafSize x.length 0 x.length =
      some (.node o s l r))
    {σ : List (List Bool)} (hσ : σ.Perm (leafPaths (.node o s l r))) :
    (deliverAll P.parent P.root (leafCVof P x (.node o s l r)) σ
      (initState : CombState cv)).root = some (hashSingle P x) := by
  have hfinal := (@deliverAll_final cv P.parent P.root
    (leafCVof P x (.node o s l r)) (.node o s l r) σ hσ).1
  rw [hfinal]
  -- unfold the root construction of the plan
  have hfb : buildTree leftSubtreeLen leafSize x.length 0 x.length =
      some (.node o s l r) := ht
  rcases hfuel : x.length with _ | f
  · rw [hfuel] at hfb; simp [buildTree] at hfb
  rw [hfuel] at hfb
  rw [buildTree] at hfb
  by_cases hguard : (f + 1) ≤ leafSize ∧
      (((f + 1 : Nat)) : WithTop Nat) ≤ maxSubtreeLen 0
  · rw [if_pos hguard] at hfb
    simp at hfb
  · rw [if_neg hguard] at hfb
    have hbig : 1024 < f + 1 := by
      by_contra hsmall
      apply hguard
      refine ⟨by omega, le_trans ?_ (le_maxSubtreeLen 0)⟩
      exact_mod_cast (show f + 1 ≤ 1024 by omega)
    obtain ⟨hL0, hLlt, _⟩ := leftSubtreeLen_bounds hbig
    rcases hleq : buildTree leftSubtreeLen leafSize f 0 (leftSubtreeLen (f + 1))
      with _ | lt
    · rw [hleq] at hfb; simp at hfb
    rcases hreq : buildTree leftSubtreeLen leafSize f
        (0 + leftSubtreeLen (f + 1)) ((f + 1) - leftSubtreeLen (f + 1)) with _ | rt
    · rw [hleq, hreq] at hfb; simp at hfb
    rw [hleq, hreq] at hfb
    have hnode : BTree.node 0 (f + 1) lt rt = BTree.node o s l r :=
      Option.some_inj.mp hfb
    injection hnode with h1 h2 h3 h4
    subst h1
    subst h2
    rw [h3] at hleq
    rw [h4] at hreq
    set t : BTree := BTree.node 0 (f + 1) l r with htdef
    have hxlen : x.length = f + 1 := hfuel
    have hchildL : nodeAt t [false] = some l := rfl
    have hchildR : nodeAt t [true] = some r := rfl
    have hml := mergeTree_eq_hashSubtree P x leafSize hls t f 0
      (leftSubtreeLen (f + 1)) l [false] hleq hchildL (by omega)
    have hmr := mergeTree_eq_hashSubtree P x leafSize hls t f
      (0 + leftSubtreeLen (f + 1)) ((f + 1) - leftSubtreeLen (f + 1)) r [true]
      hreq hchildR (by omega)
    rw [mergeTree]
    show some (P.root (mergeTree P.parent P.root (leafCVof P x t) l [false] false)
      (mergeTree P.parent P.root (leafCVof P x t) r [true] false)) = _
    rw [hml, hmr, hashSingle, if_neg (by omega)]
    rw [hxlen]
    have h1 : (x.drop 0).take (leftSubtreeLen (f + 1)) =
        x.take (leftSubtreeLen (f + 1)) := by rw [List.drop_zero]
    have h2 : (x.drop (0 + leftSubtreeLen (f + 1))).take ((f + 1) - leftSubtreeLen (f + 1)) =
        x.drop (leftSubtreeLen (f + 1)) := by
      rw [Nat.zero_add]
      apply List.take_of_length_le
      simp only [List.length_drop]
      omega
    rw [h1, h2, Nat.zero_add]


/-! ### The worker pool's pending-task table, timeouts and late replies

`SABStreamHasher.#dispatchTask` arms a 30 s timer per task:

```
const timeout = setTimeout(() => {
  this.#pendingTasks.delete(taskId);
  reject(new Error(`...timed out...`));
}, HASH_TASK_TIMEOUT);
this.#pendingTasks.set(taskId, { workerIndex, resolve, reject, timeout });
```

The rejection propagates through
`.then(cv => onTaskDone(...)).catch(err => rejectRoot(err))`, so a timeout
rejects the in-progress `hashFile`; `onTaskDone` (which frees the slot,
decrements `workerInFlight`, feeds the combiner, re-dispatches and wakes the
slot waiter) runs only on the resolve path.  `#handleWorkerMessage` drops any
reply whose `taskId` is no longer in the table.  Workers are never terminated
here.  The state below records exactly these observables; the timer firing
only while the task is pending reflects `clearTimeout` on completion. -/

structure PoolState (cv : Type) where
  pendingTasks : List (Nat × Nat)
  slotInUse : List Bool
  workerInFlight : List Nat
  workersTerminated : Bool
  rootRejected : Bool
  delivered : List (Nat × cv)
deriving DecidableEq

def lookupTask (taskId : Nat) (l : List (Nat × Nat)) : Option Nat :=
  (l.find? (fun e => e.1 == taskId)).map (fun e => e.2)

/-- The 30 s timer handler together with the `.catch(rejectRoot)` wiring. -/
def fireTaskTimeout (taskId : Nat) (st : PoolState cv) : PoolState cv :=
  if (lookupTask taskId st.pendingTasks).isNone then st
  else
    { st with
        pendingTasks := st.pendingTasks.eraseP (fun e => e.1 == taskId),
        rootRejected := true }

/-- `#handleWorkerMessage` for a `result` reply, with the `onTaskDone`
continuation of `tryDispatchPending` (its slot release, in-flight decrement
and CV delivery; the follow-up `tryDispatchPending` call and slot wake-up are
modelled separately with the dispatcher).  `workerIdx` and `slotIdx` are the
values captured by the dispatch closure for this `taskId`. -/
def handleResultMsg (taskId : Nat) (value : cv) (workerIdx slotIdx : Nat)
    (st : PoolState cv) : PoolState cv :=
  if (lookupTask taskId st.pendingTasks).isNone then st
  else
    { st with
        pendingTasks := st.pendingTasks.eraseP (fun e => e.1 == taskId),
        workerInFlight := st.workerInFlight.set workerIdx
          (st.workerInFlight.getD workerIdx 0 - 1),
        slotInUse := st.slotInUse.set slotIdx false,
        delivered := st.delivered ++ [(taskId, value)] }

theorem lookupTask_eraseP (taskId : Nat) (l : List (Nat × Nat))
    (hnd : (l.map Prod.fst).Nodup) :
    lookupTask taskId (l.eraseP (fun e => e.1 == taskId)) = none := by
  induction l with
  | nil => rfl
  | cons e l ih =>
    by_cases he : e.1 = taskId
    · rw [List.eraseP_cons_of_pos (by simp [he])]
      rw [lookupTask]
      have hnone : l.find? (fun e2 => e2.1 == taskId) = none := by
        apply List.find?_eq_none.mpr
        intro e2 he2
        simp only [beq_iff_eq]
        intro he2eq
        have : e.1 ∈ l.map Prod.fst := by
          rw [he, ← he2eq]
          exact List.mem_map_of_mem Prod.fst he2
        exact (List.nodup_cons.mp hnd).1 this
      rw [hnone]
      rfl
    · rw [List.eraseP_cons_of_neg (by simp [he])]
      rw [lookupTask, List.find?_cons_of_neg _ (by simp [he])]
      exact ih (List.nodup_cons.mp hnd).2

/-! ### The dispatcher loop `tryDispatchPending`

JavaScript (`SABStreamHasher.hashFile`, part of the streaming loop):

```
const tryDispatchPending = () => {
  while (pendingDispatches.length > 0) {
    if (workerInFlight.every(n => n >= MAX_INFLIGHT_PER_WORKER)) return;
    const item = pendingDispatches.shift();
    let workerIdx = 0;
    for (let w = 1; w < this.#numWorkers; w++) {
      if (workerInFlight[w] < workerInFlight[workerIdx]) workerIdx = w;
    }
    ...underrun stats...
    workerInFlight[workerIdx]++;
    this.#dispatchTask(workerIdx, ...).then(...).catch(...);
  }
};
```

The model returns the dispatch assignments in order, the still-queued items
and the final in-flight counters.  The `workerHasHadWork`/`workerUnderruns`
counters are pure statistics (nothing reads them for control decisions) and
are omitted. -/

def bumpWorker (inflight : List Nat) (w : Nat) : List Nat :=
  inflight.set w (inflight.getD w 0 + 1)

/-- The argmin scan `for (w = 1; ...) if (inflight[w] < inflight[workerIdx])`:
`bestVal` is `inflight[workerIdx]`, `cur` the loop index. -/
def pickLoop : List Nat → Nat → Nat → Nat → Nat
  | [], _, best, _ => best
  | v :: rest, bestVal, best, cur =>
    if v < bestVal then pickLoop rest v cur (cur + 1)
    else pickLoop rest bestVal best (cur + 1)

def pickWorker (inflight : List Nat) : Nat :=
  match inflight with
  | [] => 0
  | v :: rest => pickLoop rest v 0 1

def tryDispatchPending {α : Type} (maxInflight : Nat) :
    List α → List Nat → List (α × Nat) × List α × List Nat
  | [], inflight => ([], [], inflight)
  | item :: rest, inflight =>
    if inflight.all (fun n => maxInflight ≤ n) then ([], item :: rest, inflight)
    else
      let w := pickWorker inflight
      let out := tryDispatchPending maxInflight rest (bumpWorker inflight w)
      ((item, w) :: out.1, out.2.1, out.2.2)

/-- Spec-side model, written from the spec sentence: while there is a pending
item and at least one worker is below `max_inflight_per_worker`, pop the
item, choose the least-loaded worker with ties broken by the lowest index,
increment its counter and send. -/
def listMin : List Nat → Nat
  | [] => 0
  | v :: rest => List.foldr min v rest

def leastLoaded (inflight : List Nat) : Nat :=
  inflight.findIdx (fun v => v == listMin inflight)

def specTryDispatch {α : Type} (maxInflight : Nat) :
    List α → List Nat → List (α × Nat) × List α × List Nat
  | [], inflight => ([], [], inflight)
  | item :: rest, inflight =>
    if inflight.any (fun n => n < maxInflight) then
      let w := leastLoaded inflight
      let out := specTryDispatch maxInflight rest (bumpWorker inflight w)
      ((item, w) :: out.1, out.2.1, out.2.2)
    else ([], item :: rest, inflight)

theorem foldr_min_le_base (b : Nat) (rest : List Nat) :
    List.foldr min b rest ≤ b := by
  induction rest with
  | nil => exact le_refl b
  | cons v r ih => exact le_trans (min_le_right v _) ih

theorem foldr_min_le_mem {b u : Nat} {rest : List Nat} (h : u ∈ rest) :
    List.foldr min b rest ≤ u := by
  induction rest with
  | nil => exact absurd h (List.not_mem_nil u)
  | cons v r ih =>
    rcases List.mem_cons.mp h with rfl | hmem
    · exact min_le_left u _
    · exact le_trans (min_le_right v _) (ih hmem)

theorem foldr_min_eq_base {b : Nat} {rest : List Nat} (h : ∀ v ∈ rest, b ≤ v) :
    List.foldr min b rest = b := by
  induction rest with
  | nil => rfl
  | cons v r ih =>
    show min v (List.foldr min b r) = b
    rw [ih (fun u hu => h u (List.mem_cons_of_mem _ hu))]
    exact min_eq_right (h v (List.mem_cons_self v r))

theorem min_foldr_min {v b : Nat} (rest : List Nat) (hvb : v ≤ b) :
    min v (List.foldr min b rest) = List.foldr min v rest := by
  induction rest with
  | nil => exact min_eq_left hvb
  | cons u r ih =>
    show min v (min u (List.foldr min b r)) = min u (List.foldr min v r)
    rw [min_left_comm, ih]

theorem pickLoop_spec : ∀ (rest : List Nat) (bestVal best cur : Nat),
    pickLoop rest bestVal best cur =
      if ∀ v ∈ rest, bestVal ≤ v then best
      else cur + rest.findIdx (fun v => v == List.foldr min bestVal rest) := by
  intro rest
  induction rest with
  | nil =>
    intro bestVal best cur
    rw [pickLoop, if_pos (fun v hv => absurd hv (List.not_mem_nil v))]
  | cons v rest ih =>
    intro bestVal best cur
    rw [pickLoop]
    by_cases hvb : v < bestVal
    · rw [if_pos hvb, ih]
      have hm : List.foldr min bestVal (v :: rest) = List.foldr min v rest := by
        show min v (List.foldr min bestVal rest) = _
        exact min_foldr_min rest (le_of_lt hvb)
      have hnotall : ¬(∀ u ∈ v :: rest, bestVal ≤ u) := fun hall =>
        absurd (hall v (List.mem_cons_self v rest)) (by omega)
      rw [if_neg hnotall]
      by_cases hall : ∀ u ∈ rest, v ≤ u
      · rw [if_pos hall]
        have hmv : List.foldr min v rest = v := foldr_min_eq_base hall
        rw [hm, hmv, List.findIdx_cons]
        simp
      · rw [if_neg hall]
        push_neg at hall
        obtain ⟨u, hu, hulv⟩ := hall
        have hlt : List.foldr min v rest < v :=
          lt_of_le_of_lt (foldr_min_le_mem hu) hulv
        rw [hm, List.findIdx_cons]
        have hne : (v == List.foldr min v rest) = false := by
          simp only [beq_eq_false_iff_ne]
          omega
        rw [hne]
        simp only [cond_false]
        omega
    · rw [if_neg hvb, ih]
      have hbv : bestVal ≤ v := by omega
      by_cases hall : ∀ u ∈ rest, bestVal ≤ u
      · have hall2 : ∀ u ∈ v :: rest, bestVal ≤ u := by
          intro u hu
          rcases List.mem_cons.mp hu with rfl | hmem
          · exact hbv
          · exact hall u hmem
        rw [if_pos hall, if_pos hall2]
      · have hnotall2 : ¬(∀ u ∈ v :: rest, bestVal ≤ u) := fun hall2 =>
          hall (fun u hu => hall2 u (List.mem_cons_of_mem _ hu))
        rw [if_neg hall, if_neg hnotall2]
        push_neg at hall
        obtain ⟨u, hu, hulv⟩ := hall
        have hm' : List.foldr min bestVal rest < bestVal :=
          lt_of_le_of_lt (foldr_min_le_mem hu) hulv
        have hm : List.foldr min bestVal (v :: rest) = List.foldr min bestVal rest := by
          show min v (List.foldr min bestVal rest) = _
          exact min_eq_right (by omega)
        rw [hm, List.findIdx_cons]
        have hne : (v == List.foldr min bestVal rest) = false := by
          simp only [beq_eq_false_iff_ne]
          omega
        rw [hne]
        simp only [cond_false]
        omega

theorem pickWorker_eq_leastLoaded (inflight : List Nat) :
    pickWorker inflight = leastLoaded inflight := by
  cases inflight with
  | nil => rfl
  | cons v rest =>
    rw [pickWorker, pickLoop_spec, leastLoaded, listMin, List.findIdx_cons]
    by_cases hall : ∀ u ∈ rest, v ≤ u
    · rw [if_pos hall]
      have hmv : List.foldr min v rest = v := foldr_min_eq_base hall
      rw [hmv]
      simp
    · rw [if_neg hall]
      push_neg at hall
      obtain ⟨u, hu, hulv⟩ := hall
      have hlt : List.foldr min v rest < v :=
        lt_of_le_of_lt (foldr_min_le_mem hu) hulv
      have : (v == List.foldr min v rest) = false := by
        simp only [beq_eq_false_iff_ne]
        omega
      rw [this]
      simp only [cond_false]
      omega

theorem tryDispatchPending_eq_spec {α : Type} (maxInflight : Nat) :
    ∀ (pending : List α) (inflight : List Nat),
      tryDispatchPending maxInflight pending inflight =
        specTryDispatch maxInflight pending inflight := by
  intro pending
  induction pending with
  | nil => intro inflight; rfl
  | cons item rest ih =>
    intro inflight
    rw [tryDispatchPending, specTryDispatch]
    have hcond : (inflight.all (fun n => maxInflight ≤ n) = true) ↔
        ¬(inflight.any (fun n => n < maxInflight) = true) := by
      simp only [List.all_eq_true, List.any_eq_true, decide_eq_true_eq]
      push_neg
      constructor
      · intro h n hn
        exact h n hn
      · intro h n hn
        exact h n hn
    by_cases hfull : inflight.all (fun n => maxInflight ≤ n) = true
    · rw [if_pos hfull, if_neg (hcond.mp hfull)]
    · rw [if_neg hfull, if_pos (by by_contra h2; exact hfull (hcond.mpr h2))]
      simp only [ih, pickWorker_eq_leastLoaded]

/-- When the loop stops with items still queued, every worker is saturated. -/
theorem tryDispatchPending_stop {α : Type} (maxInflight : Nat) :
    ∀ (pending : List α) (inflight : List Nat),
      (tryDispatchPending maxInflight pending inflight).2.1 ≠ [] →
      ((tryDispatchPending maxInflight pending inflight).2.2).all
        (fun n => maxInflight ≤ n) = true := by
  intro pending
  induction pending with
  | nil => intro inflight h; exact absurd rfl h
  | cons item rest ih =>
    intro inflight h
    rw [tryDispatchPending] at h ⊢
    by_cases hfull : inflight.all (fun n => maxInflight ≤ n) = true
    · rw [if_pos hfull] at h ⊢
      exact hfull
    · rw [if_neg hfull] at h ⊢
      exact ih _ h

/-! ## Claim theorems -/

/-- A planned tree always has at least one leaf position. -/
theorem leafPaths_ne_nil (t : BTree) : leafPaths t ≠ [] := by
  induction t with
  | leaf o s => simp [leafPaths]
  | node o s l r ihl ihr =>
    simp only [leafPaths, ne_eq, List.append_eq_nil, List.map_eq_nil_iff]
    intro h
    exact ihl h.1

/-- Every reply of the in-repo streaming worker to a dispatched leaf task is
an `error` (the `offset`/`inputOffset` field mismatch), so the all-resolved
guard of the streaming pipeline is false on every multi-leaf plan. -/
theorem streaming_all_replies_error {cv : Type} (P : Blake3Prims cv)
    (x : List Nat) (t : BTree) :
    (leafPaths t).all (fun p => replyIsResult (streamingLeafReply P x t p)) =
      false := by
  apply Bool.eq_false_iff.mpr
  intro hT
  rw [List.all_eq_true] at hT
  obtain ⟨p, hp⟩ := List.exists_mem_of_ne_nil _ (leafPaths_ne_nil t)
  obtain ⟨o2, s2, hn⟩ := (mem_leafPaths_iff t p).mp hp
  have hrep : streamingLeafReply P x t p =
      .error 0 "Cannot convert undefined to a BigInt" := by
    unfold streamingLeafReply
    rw [hn]
    rfl
  have hres := hT p hp
  rw [hrep] at hres
  exact absurd hres (by simp [replyIsResult])

/-- C1 (corrected): with the primitive library modelled by its BLAKE3
contracts, the plan/worker/combine pipeline of `SABStreamHasher.hashFile`
returns `hash_single x` for every input `x` and every order in which the
leaf chaining values come back from the workers.  For
`StreamingHasher.hashFileStreaming` the same holds exactly on the paths
that dispatch no worker task (the small-input and single-leaf `hash_single`
shortcuts), while on every plan with two or more leaves the in-repo
streaming worker replies `error` to each task (it reads the absent
`inputOffset` field), the root promise is rejected, and the call never
returns a digest. -/
theorem c1_pipeline_refines_hash_single (cv : Type) (P : Blake3Prims cv)
    (leafSize chunkSize : Nat) (x : List Nat) (σ τ : List (List Bool))
    (hls : 1024 ≤ leafSize) (hcs : 1024 ≤ chunkSize)
    (hτ : ∀ trr, buildTree leftSubtreeLen chunkSize x.length 0 x.length = some trr →
      τ.Perm (leafPaths trr)) :
    sabHashFileModel P chunkSize x τ = some (hashSingle P x) ∧
    (streamingUsesWorkers leafSize x.length = false →
      hashFileStreamingModel P leafSize x σ = some (hashSingle P x)) ∧
    (streamingUsesWorkers leafSize x.length = true →
      hashFileStreamingModel P leafSize x σ = none) := by
  refine ⟨?_, ?_, ?_⟩
  · rw [sabHashFileModel]
    by_cases hsmall : x.length < 65536
    · rw [if_pos hsmall]
    · rw [if_neg hsmall]
      have hsome := buildTree_isSome_aux leftSubtreeLen chunkSize 1024 hcs
        (le_refl 1024) leftSubtreeLen_contract x.length 0 x.length (le_refl _)
        (by omega)
      obtain ⟨trr, htrr⟩ := Option.isSome_iff_exists.mp hsome
      rw [htrr]
      rcases trr with ⟨o, s⟩ | ⟨o, s, l, r⟩
      · rfl
      · exact pipeline_root_eq P chunkSize x hcs htrr (hτ _ htrr)
  · intro hno
    rw [streamingUsesWorkers] at hno
    rw [hashFileStreamingModel]
    by_cases hsmall : x.length ≤ 1024
    · rw [if_pos hsmall]
    · rw [if_neg hsmall] at hno ⊢
      have hsome := buildTree_isSome_aux leftSubtreeLen leafSize 1024 hls
        (le_refl 1024) leftSubtreeLen_contract x.length 0 x.length (le_refl _)
        (by omega)
      obtain ⟨trr, htrr⟩ := Option.isSome_iff_exists.mp hsome
      rw [htrr] at hno ⊢
      rcases trr with ⟨o, s⟩ | ⟨o, s, l, r⟩
      · rfl
      · exact Bool.noConfusion hno
  · intro hyes
    rw [streamingUsesWorkers] at hyes
    rw [hashFileStreamingModel]
    by_cases hsmall : x.length ≤ 1024
    · rw [if_pos hsmall] at hyes
      exact Bool.noConfusion hyes
    · rw [if_neg hsmall] at hyes ⊢
      rcases htrr : buildTree leftSubtreeLen leafSize x.length 0 x.length
        with _ | trr
      · rfl
      · rw [htrr] at hyes
        rcases trr with ⟨o, s⟩ | ⟨o, s, l, r⟩
        · exact Bool.noConfusion hyes
        · exact if_neg (by simp [streaming_all_replies_error])

set_option maxRecDepth 20000 in
/-- C1 counterexample: the original claim — the hashers return
`hash_single x` for every `x` and every completion order — fails for
`StreamingHasher.hashFileStreaming` at any input whose plan has two or more
leaves: with a 1024-byte leaf size and 2048 input bytes the streaming
worker replies `error` to both leaf tasks (it reads the absent
`inputOffset` field), the root promise is rejected, and the call yields no
digest at all, in particular not `hash_single x`. -/
theorem c1_counterexample :
    hashFileStreamingModel
        (⟨fun xs i => xs.sum + i, fun xs => xs.sum + 1,
          fun a b => a + 2 * b, fun a b => 3 * a + 5 * b⟩ : Blake3Prims Nat)
        1024 (List.replicate 2048 0) [[true], [false]] = none ∧
    ¬ (hashFileStreamingModel
        (⟨fun xs i => xs.sum + i, fun xs => xs.sum + 1,
          fun a b => a + 2 * b, fun a b => 3 * a + 5 * b⟩ : Blake3Prims Nat)
        1024 (List.replicate 2048 0) [[true], [false]] =
      some (hashSingle
        (⟨fun xs i => xs.sum + i, fun xs => xs.sum + 1,
          fun a b => a + 2 * b, fun a b => 3 * a + 5 * b⟩ : Blake3Prims Nat)
        (List.replicate 2048 0))) := by
  have hlen : (List.replicate 2048 (0 : Nat)).length = 2048 := by simp
  have hb : buildTree leftSubtreeLen 1024 (List.replicate 2048 (0 : Nat)).length 0
      (List.replicate 2048 (0 : Nat)).length =
      some (.node 0 2048 (.leaf 0 1024) (.leaf 1024 1024)) := by
    rw [hlen]
    decide
  have h1 : hashFileStreamingModel
      (⟨fun xs i => xs.sum + i, fun xs => xs.sum + 1,
        fun a b => a + 2 * b, fun a b => 3 * a + 5 * b⟩ : Blake3Prims Nat)
      1024 (List.replicate 2048 0) [[true], [false]] = none := by
    rw [hashFileStreamingModel, if_neg (by rw [hlen]; omega), hb]
    exact if_neg (by simp [streaming_all_replies_error])
  exact ⟨h1, by rw [h1]; exact fun hc => Option.noConfusion hc⟩

set_option maxRecDepth 20000 in
/-- Witness for C1 at a concrete two-leaf input: the SAB pipeline returns
the reference digest, while the streaming pipeline hands the same plan to
the workers and is rejected. -/
theorem c1_pipeline_refines_hash_single_witness :
    sabHashFileModel
        (⟨fun xs i => xs.sum + i, fun xs => xs.sum + 1,
          fun a b => a + 2 * b, fun a b => 3 * a + 5 * b⟩ : Blake3Prims Nat)
        1024 (List.replicate 2048 0) [[false], [true]] =
      some (hashSingle
        (⟨fun xs i => xs.sum + i, fun xs => xs.sum + 1,
          fun a b => a + 2 * b, fun a b => 3 * a + 5 * b⟩ : Blake3Prims Nat)
        (List.replicate 2048 0)) ∧
    streamingUsesWorkers 1024 (List.replicate 2048 (0 : Nat)).length = true ∧
    hashFileStreamingModel
        (⟨fun xs i => xs.sum + i, fun xs => xs.sum + 1,
          fun a b => a + 2 * b, fun a b => 3 * a + 5 * b⟩ : Blake3Prims Nat)
        1024 (List.replicate 2048 0) [[true], [false]] = none := by
  have hlen : (List.replicate 2048 (0 : Nat)).length = 2048 := by simp
  have hb : buildTree leftSubtreeLen 1024 (List.replicate 2048 (0 : Nat)).length 0
      (List.replicate 2048 (0 : Nat)).length =
      some (.node 0 2048 (.leaf 0 1024) (.leaf 1024 1024)) := by
    rw [hlen]
    decide
  have huw : streamingUsesWorkers 1024 (List.replicate 2048 (0 : Nat)).length =
      true := by
    rw [hlen]
    decide
  have hτ : ∀ trr, buildTree leftSubtreeLen 1024
      (List.replicate 2048 (0 : Nat)).length 0
      (List.replicate 2048 (0 : Nat)).length = some trr →
      ([[false], [true]] : List (List Bool)).Perm (leafPaths trr) := by
    intro trr htrr
    rw [hb] at htrr
    obtain rfl := Option.some_inj.mp htrr
    decide
  have hmain := c1_pipeline_refines_hash_single Nat
    (⟨fun xs i => xs.sum + i, fun xs => xs.sum + 1,
      fun a b => a + 2 * b, fun a b => 3 * a + 5 * b⟩ : Blake3Prims Nat)
    1024 1024 (List.replicate 2048 0) [[true], [false]] [[false], [true]]
    (le_refl 1024) (le_refl 1024) hτ
  exact ⟨hmain.1, huw, hmain.2.2 huw⟩

/-- C3: for a positive `total_size` and a `max_leaf_size` that is a positive
multiple of 1024, every leaf emitted by `buildTree(0, total_size)` has a
1024-aligned offset, a size of at least one byte, at most `max_leaf_size`
and at most `maxSubtreeLen(offset)` — assuming `left_subtree_len` returns a
multiple of 1024 strictly between 0 and `n` on every `n > 1024`. -/
theorem c3_leaf_invariants (lsl : Nat → Nat) (leafSize fuel total : Nat)
    (t : BTree) (hpos : 0 < leafSize) (hdvd : 1024 ∣ leafSize)
    (H : ∀ n, 1024 < n → 1024 ∣ lsl n ∧ 0 < lsl n ∧ lsl n < n)
    (htotal : 1 ≤ total)
    (ht : buildTree lsl leafSize fuel 0 total = some t) :
    (collectLeaves t).all (leafOK leafSize) = true := by
  have hls : 1024 ≤ leafSize := by
    obtain ⟨k, rfl⟩ := hdvd
    have : 1 ≤ k := by omega
    omega
  exact buildTree_leaves_ok lsl leafSize hls H fuel 0 total t (dvd_zero 1024) htotal ht

/-- Witness for C3 with the constant split `lsl n = 1024`. -/
theorem c3_leaf_invariants_witness :
    buildTree (fun _ => 1024) 1024 3 0 2048 =
      some (.node 0 2048 (.leaf 0 1024) (.leaf 1024 1024)) ∧
    (collectLeaves (.node 0 2048 (.leaf 0 1024) (.leaf 1024 1024))).all
      (leafOK 1024) = true := by
  have hb : buildTree (fun _ => 1024) 1024 3 0 2048 =
      some (.node 0 2048 (.leaf 0 1024) (.leaf 1024 1024)) := by decide
  exact ⟨hb, c3_leaf_invariants (fun _ => 1024) 1024 3 2048 _ (by decide)
    (dvd_refl 1024)
    (fun n hn => ⟨dvd_refl 1024, show (0 : Nat) < 1024 by omega, hn⟩)
    (by decide) hb⟩

/-- C10: `buildTree(offset, size)` terminates for every `offset` and every
`size ≤ fuel` (the recursion is well-founded on `size`), provided
`left_subtree_len` returns `0 < L < n` on every `n` it can be called on
(every `n > 1`, given a positive `max_leaf_size` so that single-byte ranges
are leaves). -/
theorem c10_buildTree_terminates (lsl : Nat → Nat) (leafSize offset size fuel : Nat)
    (hleaf : 1 ≤ leafSize) (H : ∀ n, 1 < n → 0 < lsl n ∧ lsl n < n)
    (hfuel : size ≤ fuel) (hfuel1 : 1 ≤ fuel) :
    (buildTree lsl leafSize fuel offset size).isSome = true := by
  refine buildTree_isSome_aux lsl leafSize 1 hleaf (by omega) ?_ fuel offset size hfuel hfuel1
  intro n hn
  exact H n hn

/-- Witness for C10 with the split `lsl n = n - 1`. -/
theorem c10_buildTree_terminates_witness :
    (buildTree (fun n => n - 1) 1 5 0 5).isSome = true :=
  c10_buildTree_terminates (fun n => n - 1) 1 0 5 5 (le_refl 1)
    (fun n hn => ⟨show 0 < n - 1 by omega, show n - 1 < n by omega⟩)
    (le_refl 5) (by omega)

/-- C6 counterexample: at the offset whose chunk index is `2 ^ 31` (which has
31 trailing zero bits) the code returns 1024, not the claimed exact value
`2 ^ 31 * 1024`: the 32-bit `ToInt32` coercions make `chunkIndex & -chunkIndex`
read as a negative int32, `Math.log2` of it is `NaN`, and `1 << NaN` is 1. -/
theorem c6_counterexample :
    maxSubtreeLen (2 ^ 31 * 1024) = ((1024 : Nat) : WithTop Nat) ∧
    specMaxSubtreeLen (2 ^ 31 * 1024) = ((2 ^ 31 * 1024 : Nat) : WithTop Nat) ∧
    ((2 ^ 31 * 1024 : Nat) : WithTop Nat) ≠ ((1024 : Nat) : WithTop Nat) := by
  refine ⟨?_, ?_, ?_⟩
  · refine maxSubtreeLen_degenerate (by positivity) ?_ ?_
    · rw [Nat.mul_div_cancel _ (by omega), trailingZeros_two_pow]
    · rw [Nat.mul_div_cancel _ (by omega)]
      positivity
  · rw [specMaxSubtreeLen, if_neg (by positivity),
      Nat.mul_div_cancel _ (by omega), trailingZeros_two_pow]
  · intro h
    have h2 : (2 ^ 31 * 1024 : Nat) = 1024 := by exact_mod_cast h
    norm_num at h2

/-- C6 amended: `maxSubtreeLen 0` is unbounded, and for a positive chunk
index `c` the code computes the exact `2 ^ trailing_zeros(c) * 1024` whenever
`c` has at most 30 trailing zero bits; when `c` has 31 or more trailing zero
bits the 32-bit coercions collapse the computation and the code returns 1024
instead. -/
theorem c6_maxSubtreeLen_characterization :
    maxSubtreeLen 0 = ⊤ ∧ specMaxSubtreeLen 0 = ⊤ ∧
    (∀ c, 0 < c → trailingZeros c ≤ 30 →
      maxSubtreeLen (c * 1024) = specMaxSubtreeLen (c * 1024)) ∧
    (∀ c, 0 < c → 31 ≤ trailingZeros c →
      maxSubtreeLen (c * 1024) = ((1024 : Nat) : WithTop Nat)) := by
  refine ⟨rfl, rfl, ?_, ?_⟩
  · intro c hc htz
    refine maxSubtreeLen_eq_spec (by positivity) ?_ ?_ <;>
      rw [Nat.mul_div_cancel _ (by omega)]
    · exact htz
    · exact hc
  · intro c hc htz
    refine maxSubtreeLen_degenerate (by positivity) ?_ ?_ <;>
      rw [Nat.mul_div_cancel _ (by omega)]
    · exact htz
    · exact hc

/-- Witness for the amended C6 at chunk index 4. -/
theorem c6_maxSubtreeLen_characterization_witness :
    0 < 4 ∧ trailingZeros 4 ≤ 30 ∧
    maxSubtreeLen (4 * 1024) = specMaxSubtreeLen (4 * 1024) :=
  ⟨by decide, by decide,
    c6_maxSubtreeLen_characterization.2.2.1 4 (by decide) (by decide)⟩

theorem innerPaths_filter_isEmpty (o s : Nat) (l r : BTree) :
    (innerPaths (.node o s l r)).filter (fun p : List Bool => p.isEmpty) = [[]] := by
  rw [innerPaths, List.filter_cons_of_pos (by rfl)]
  have h : ((innerPaths l).map (fun p => p ++ [false]) ++
      (innerPaths r).map (fun p => p ++ [true])).filter
        (fun p : List Bool => p.isEmpty) = [] := by
    apply List.filter_eq_nil_iff.mpr
    intro a ha
    rcases List.mem_append.mp ha with h | h <;>
      obtain ⟨q, _, rfl⟩ := List.mem_map.mp h <;> simp
  rw [h]

/-- C4: on every planned tree with at least two leaves (an inner root), for
every order of worker completions, the bubble-up combiner performs one merge
per inner node; the single merge flagged as root-finalizing (`root_hash`) is
exactly the merge at the root position, and every other merge (`parent_cv`)
is at a non-root position — so `root_hash` is invoked exactly once per call
and `parent_cv` is never invoked at the root. -/
theorem c4_root_merge (cv : Type) (pf rf : cv → cv → cv) (cvOf : List Bool → cv)
    (o s : Nat) (l r : BTree) (σ : List (List Bool))
    (hσ : σ.Perm (leafPaths (.node o s l r))) :
    (((deliverAll pf rf cvOf σ (initState : CombState cv)).trace.map Prod.fst).Perm
      (innerPaths (.node o s l r))) ∧
    ((deliverAll pf rf cvOf σ (initState : CombState cv)).trace.all
      (fun e => e.2 == e.1.isEmpty) = true) ∧
    (((deliverAll pf rf cvOf σ (initState : CombState cv)).trace.filter
      (fun e => e.2)).map Prod.fst = [[]]) ∧
    (((deliverAll pf rf cvOf σ (initState : CombState cv)).trace.filter
      (fun e => e.2)).length = 1) := by
  obtain ⟨_, htrace, hflags⟩ :=
    @deliverAll_final cv pf rf cvOf (.node o s l r) σ hσ
  have hflagsb : (deliverAll pf rf cvOf σ (initState : CombState cv)).trace.all
      (fun e => e.2 == e.1.isEmpty) = true := by
    rw [List.all_eq_true]
    intro e he
    rw [beq_iff_eq]
    exact hflags e he
  have hfiltereq : (deliverAll pf rf cvOf σ (initState : CombState cv)).trace.filter
      (fun e => e.2) =
      (deliverAll pf rf cvOf σ (initState : CombState cv)).trace.filter
        (fun e => e.1.isEmpty) :=
    List.filter_congr (fun e he => by rw [hflags e he])
  have hmapfst : ((deliverAll pf rf cvOf σ (initState : CombState cv)).trace.filter
      (fun e => e.1.isEmpty)).map Prod.fst =
      ((deliverAll pf rf cvOf σ (initState : CombState cv)).trace.map
        Prod.fst).filter (fun p => p.isEmpty) := by
    rw [List.filter_map]
    rfl
  have hperm2 := htrace.filter (fun p : List Bool => p.isEmpty)
  rw [innerPaths_filter_isEmpty] at hperm2
  have hsingleton : ((deliverAll pf rf cvOf σ (initState : CombState cv)).trace.filter
      (fun e => e.2)).map Prod.fst = [[]] := by
    rw [hfiltereq, hmapfst]
    exact List.perm_singleton.mp hperm2
  refine ⟨htrace, hflagsb, hsingleton, ?_⟩
  have hlen : (((deliverAll pf rf cvOf σ (initState : CombState cv)).trace.filter
      (fun e => e.2)).map Prod.fst).length = 1 := by
    rw [hsingleton]
    rfl
  rw [List.length_map] at hlen
  exact hlen

/-- Witness for C4 on a two-leaf tree with reversed completion order. -/
theorem c4_root_merge_witness :
    ([[true], [false]] : List (List Bool)).Perm
      (leafPaths (.node 0 2048 (.leaf 0 1024) (.leaf 1024 1024))) ∧
    (((deliverAll (fun a b => a + 2 * b) (fun a b => 7 * a + b)
        (fun p => p.length) [[true], [false]]
        (initState : CombState Nat)).trace.filter (fun e => e.2)).map
          Prod.fst = [[]]) := by
  have hperm : ([[true], [false]] : List (List Bool)).Perm
      (leafPaths (.node 0 2048 (.leaf 0 1024) (.leaf 1024 1024))) := by decide
  exact ⟨hperm, (c4_root_merge Nat (fun a b => a + 2 * b) (fun a b => 7 * a + b)
    (fun p => p.length) 0 2048 (.leaf 0 1024) (.leaf 1024 1024)
    [[true], [false]] hperm).2.2.1⟩

/-- C7: for every planned tree and every assignment of chaining values to
its leaves, delivering the leaves to the bubble-up combiner in any two
orders resolves the root with the same digest, and that digest equals the
sequential recursive `#mergeTree` over the same leaf values. -/
theorem c7_order_independence (cv : Type) (pf rf : cv → cv → cv)
    (cvOf : List Bool → cv) (t : BTree) (σ₁ σ₂ : List (List Bool))
    (h₁ : σ₁.Perm (leafPaths t)) (h₂ : σ₂.Perm (leafPaths t)) :
    (deliverAll pf rf cvOf σ₁ (initState : CombState cv)).root =
      some (mergeTree pf rf cvOf t [] true) ∧
    (deliverAll pf rf cvOf σ₁ (initState : CombState cv)).root =
      (deliverAll pf rf cvOf σ₂ (initState : CombState cv)).root := by
  have r₁ := (@deliverAll_final cv pf rf cvOf t σ₁ h₁).1
  have r₂ := (@deliverAll_final cv pf rf cvOf t σ₂ h₂).1
  exact ⟨r₁, r₁.trans r₂.symm⟩

/-- Witness for C7 on a three-leaf tree, comparing two completion orders. -/
theorem c7_order_independence_witness :
    ([[true], [false, false], [true, false]] : List (List Bool)).Perm
      (leafPaths (.node 0 3072
        (.node 0 2048 (.leaf 0 1024) (.leaf 1024 1024)) (.leaf 2048 1024))) ∧
    ([[false, false], [true], [true, false]] : List (List Bool)).Perm
      (leafPaths (.node 0 3072
        (.node 0 2048 (.leaf 0 1024) (.leaf 1024 1024)) (.leaf 2048 1024))) ∧
    (deliverAll (fun a b => a + 2 * b) (fun a b => 7 * a + b)
        (fun p => 5 * p.length + (if p.headD false then 1 else 0))
        [[true], [false, false], [true, false]]
        (initState : CombState Nat)).root =
      (deliverAll (fun a b => a + 2 * b) (fun a b => 7 * a + b)
        (fun p => 5 * p.length + (if p.headD false then 1 else 0))
        [[false, false], [true], [true, false]]
        (initState : CombState Nat)).root := by
  have hp₁ : ([[true], [false, false], [true, false]] : List (List Bool)).Perm
      (leafPaths (.node 0 3072
        (.node 0 2048 (.leaf 0 1024) (.leaf 1024 1024)) (.leaf 2048 1024))) := by
    decide
  have hp₂ : ([[false, false], [true], [true, false]] : List (List Bool)).Perm
      (leafPaths (.node 0 3072
        (.node 0 2048 (.leaf 0 1024) (.leaf 1024 1024)) (.leaf 2048 1024))) := by
    decide
  exact ⟨hp₁, hp₂, (c7_order_independence Nat (fun a b => a + 2 * b)
    (fun a b => 7 * a + b)
    (fun p => 5 * p.length + (if p.headD false then 1 else 0)) _ _ _ hp₁ hp₂).2⟩

/-- C5 counterexample: with the (spec-sanctioned) leaf size of 1024 bytes, an
input of 2048 bytes — far below 65536 — is planned as two leaves and
`hashFileStreaming` hands work to the worker pool: its small-input shortcut
tests `totalBytes <= 1024`, not `totalBytes < 65536`. -/
theorem c5_counterexample :
    streamingUsesWorkers 1024 2048 = true ∧ 2048 < 65536 := by
  constructor
  · decide
  · omega

/-- C5 amended: `SABStreamHasher.hashFile` bypasses the dispatcher and worker
pool and returns `hash_single` of the full input for every `total_size <
65536` (any leaf size).  `StreamingHasher.hashFileStreaming` only short-cuts
at `total_size ≤ 1024`; at the default 1 MiB leaf size every `total_size <
65536` still avoids the workers (the planned root is a single leaf and the
digest is a single `hash_single` call), but for a smaller configured leaf
size some inputs below 65536 do use the worker pool. -/
theorem c5_small_input_shortcut :
    (∀ chunkSize total, total < 65536 → sabUsesWorkers chunkSize total = false) ∧
    (∀ (cv : Type) (P : Blake3Prims cv) (chunkSize : Nat) (x : List Nat)
      (τ : List (List Bool)), x.length < 65536 →
      sabHashFileModel P chunkSize x τ = some (hashSingle P x)) ∧
    (∀ total, total < 65536 → streamingUsesWorkers 1048576 total = false) ∧
    (∀ (cv : Type) (P : Blake3Prims cv) (x : List Nat) (σ : List (List Bool)),
      x.length < 65536 →
      hashFileStreamingModel P 1048576 x σ = some (hashSingle P x)) := by
  have hleafroot : ∀ total : Nat, 1024 < total → total ≤ 1048576 →
      buildTree leftSubtreeLen 1048576 total 0 total = some (.leaf 0 total) := by
    intro total h1 h2
    obtain ⟨f, rfl⟩ : ∃ f, total = f + 1 := ⟨total - 1, by omega⟩
    rw [buildTree, if_pos ⟨h2, le_top⟩]
  refine ⟨?_, ?_, ?_, ?_⟩
  · intro chunkSize total htotal
    rw [sabUsesWorkers, if_pos htotal]
  · intro cv P chunkSize x τ hx
    rw [sabHashFileModel, if_pos hx]
  · intro total htotal
    rw [streamingUsesWorkers]
    by_cases hsmall : total ≤ 1024
    · rw [if_pos hsmall]
    · rw [if_neg hsmall, hleafroot total (by omega) (by omega)]
  · intro cv P x σ hx
    rw [hashFileStreamingModel]
    by_cases hsmall : x.length ≤ 1024
    · rw [if_pos hsmall]
    · rw [if_neg hsmall, hleafroot x.length (by omega) (by omega)]

/-- Witness for the amended C5 at concrete sizes. -/
theorem c5_small_input_shortcut_witness :
    (2047 < 65536 ∧ streamingUsesWorkers 1048576 2047 = false) ∧
    (60000 < 65536 ∧ sabUsesWorkers 1024 60000 = false) :=
  ⟨⟨by omega, c5_small_input_shortcut.2.2.1 2047 (by omega)⟩,
    ⟨by omega, c5_small_input_shortcut.1 1024 60000 (by omega)⟩⟩

/-- C2 (code bug): the message posted by `StreamingHasher.#dispatchBuffer`
carries the absolute file offset in the field `offset`, but
`streaming-worker.js` destructures `inputOffset` — a field that is never
sent.  `BigInt(undefined)` then throws before `hash_subtree` is reached, so
an initialized worker replies `error(taskId, ...)` for **every** dispatched
leaf task, never `result(taskId, cv)`.  (The earlier revisions of the hasher
and the SAB pair both match field names, and the spec prescribes
`result(task_id, cv)`, so the worker-side field name is the slip.) -/
theorem c2_streaming_offset_field_mismatch (cv : Type) (P : Blake3Prims cv)
    (buffer : List Nat) (inputOffset taskId : Nat) :
    streamingWorkerOnHash P true
        (streamingDispatchHashMsg buffer inputOffset taskId) =
      WorkerReply.error taskId "Cannot convert undefined to a BigInt" := rfl

/-- C8: the dispatch loop of the SAB hasher is exactly the behaviour the
spec describes — it pops queued items while some worker is below
`max_inflight_per_worker`, sends each to the least-loaded worker with ties
broken by the lowest index, and when it stops with items still queued every
worker is saturated. -/
theorem c8_dispatch_loop (α : Type) (maxInflight : Nat) (pending : List α)
    (inflight : List Nat) :
    tryDispatchPending maxInflight pending inflight =
      specTryDispatch maxInflight pending inflight ∧
    ((tryDispatchPending maxInflight pending inflight).2.1 ≠ [] →
      ((tryDispatchPending maxInflight pending inflight).2.2).all
        (fun n => maxInflight ≤ n) = true) :=
  ⟨tryDispatchPending_eq_spec maxInflight pending inflight,
    tryDispatchPending_stop maxInflight pending inflight⟩

/-- Witness for C8: four queued items, three workers with loads `[1, 0, 2]`
and limit 2: the first item goes to worker 1, the second to worker 0 (tie at
load 1 broken by lowest index), the third to worker 1, then every worker is
saturated and the last item stays queued. -/
theorem c8_dispatch_loop_witness :
    tryDispatchPending 2 [10, 20, 30, 40] [1, 0, 2] =
      specTryDispatch 2 [10, 20, 30, 40] [1, 0, 2] ∧
    tryDispatchPending 2 [10, 20, 30, 40] [1, 0, 2] =
      ([(10, 1), (20, 0), (30, 1)], [40], [2, 2, 2]) ∧
    ((tryDispatchPending 2 [10, 20, 30, 40] [1, 0, 2]).2.2).all
      (fun n => 2 ≤ n) = true :=
  ⟨(c8_dispatch_loop Nat 2 [10, 20, 30, 40] [1, 0, 2]).1, by decide,
    (c8_dispatch_loop Nat 2 [10, 20, 30, 40] [1, 0, 2]).2 (by decide)⟩

/-- C9 counterexample: one in-flight task (`taskId` 0 on worker 0, slot 0)
whose timeout fires: the pending entry is removed and the call is rejected,
but — contrary to the claim — the slot is still marked in use and the
worker's in-flight count is not decremented (`onTaskDone` only runs on the
resolve path; the `.catch` goes to `rejectRoot`). -/
theorem c9_counterexample :
    (fireTaskTimeout 0
        (⟨[(0, 0)], [true], [1], false, false, []⟩ : PoolState Nat)).slotInUse =
      [true] ∧
    (fireTaskTimeout 0
        (⟨[(0, 0)], [true], [1], false, false, []⟩ : PoolState Nat)).workerInFlight =
      [1] ∧
    ¬((fireTaskTimeout 0
        (⟨[(0, 0)], [true], [1], false, false, []⟩ : PoolState Nat)).slotInUse =
          [false] ∧
      (fireTaskTimeout 0
        (⟨[(0, 0)], [true], [1], false, false, []⟩ : PoolState Nat)).workerInFlight =
          [0]) := by
  refine ⟨rfl, rfl, ?_⟩
  rintro ⟨h, _⟩
  simp [fireTaskTimeout, lookupTask] at h

/-- C9 amended: when a hash task's 30-second timeout fires before the worker
replies, the pool removes and rejects the task's pending entry (failing the
in-progress `hashFile`) and does not terminate the worker, and a reply
arriving after the timeout is ignored; however the slot stays marked in use
and the owning worker's in-flight count is not decremented — slots are only
reset wholesale at the start of the next `hashFile`. -/
theorem c9_timeout_behaviour (cv : Type) (st : PoolState cv) (taskId : Nat)
    (value : cv) (workerIdx slotIdx : Nat)
    (hnd : (st.pendingTasks.map Prod.fst).Nodup) :
    (fireTaskTimeout taskId st).slotInUse = st.slotInUse ∧
    (fireTaskTimeout taskId st).workerInFlight = st.workerInFlight ∧
    (fireTaskTimeout taskId st).workersTerminated = st.workersTerminated ∧
    lookupTask taskId (fireTaskTimeout taskId st).pendingTasks = none ∧
    ((lookupTask taskId st.pendingTasks).isSome = true →
      (fireTaskTimeout taskId st).rootRejected = true) ∧
    handleResultMsg taskId value workerIdx slotIdx (fireTaskTimeout taskId st) =
      fireTaskTimeout taskId st := by
  by_cases hl : (lookupTask taskId st.pendingTasks).isNone
  · have hfire : fireTaskTimeout taskId st = st := by
      rw [fireTaskTimeout, if_pos hl]
    rw [hfire]
    have hlnone : lookupTask taskId st.pendingTasks = none :=
      Option.isNone_iff_eq_none.mp hl
    refine ⟨rfl, rfl, rfl, hlnone, ?_, ?_⟩
    · intro hsome
      rw [hlnone] at hsome
      exact absurd hsome (by simp)
    · rw [handleResultMsg, if_pos hl]
  · have hfire : fireTaskTimeout taskId st =
        { st with
            pendingTasks := st.pendingTasks.eraseP (fun e => e.1 == taskId),
            rootRejected := true } := by
      rw [fireTaskTimeout, if_neg hl]
    have herase : lookupTask taskId
        (st.pendingTasks.eraseP (fun e => e.1 == taskId)) = none :=
      lookupTask_eraseP taskId st.pendingTasks hnd
    rw [hfire]
    refine ⟨rfl, rfl, rfl, herase, fun _ => rfl, ?_⟩
    rw [handleResultMsg, if_pos (by rw [show ({ st with
        pendingTasks := st.pendingTasks.eraseP (fun e => e.1 == taskId),
        rootRejected := true } : PoolState cv).pendingTasks =
          st.pendingTasks.eraseP (fun e => e.1 == taskId) from rfl, herase]; rfl)]

/-- Witness for the amended C9 at a concrete one-task pool state. -/
theorem c9_timeout_behaviour_witness :
    ((([(0, 0)] : List (Nat × Nat)).map Prod.fst).Nodup) ∧
    lookupTask 0 (fireTaskTimeout 0
      (⟨[(0, 0)], [true], [1], false, false, []⟩ : PoolState Nat)).pendingTasks =
        none ∧
    handleResultMsg 0 77 0 0 (fireTaskTimeout 0
        (⟨[(0, 0)], [true], [1], false, false, []⟩ : PoolState Nat)) =
      fireTaskTimeout 0
        (⟨[(0, 0)], [true], [1], false, false, []⟩ : PoolState Nat) := by
  have hnd : ((([(0, 0)] : List (Nat × Nat)).map Prod.fst).Nodup) := by decide
  have h := c9_timeout_behaviour Nat
    (⟨[(0, 0)], [true], [1], false, false, []⟩ : PoolState Nat) 0 77 0 0 hnd
  exact ⟨hnd, h.2.2.2.1, h.2.2.2.2.2⟩

end Blake3Stream
